import Mathlib

/-
Verification of the streaming conversational protocol engine of the
`ask` CLI (crate `ask`): the SSE frame reader and content block
accumulator (`src/anthropic_client.rs`), the multi-turn tool-calling
loop (`src/main.rs`), the incremental style renderer
(`src/printer.rs`) and the structural Markdown renderer
(`src/response_parsing.rs`).

Strings are embedded as `List Char` (the streams in question are
`String`s in the source; a chunk boundary is modelled at character
granularity).  `serde_json::Value` is embedded as the inductive `Json`
with integer numbers, which covers every value exchanged by the
protocol fields the code inspects.  ANSI rendering of the `console`
crate is embedded by `encodeWrite`, matching the byte sequences pinned
by the unit tests in `printer.rs`.
-/

/- ===================================================================
   Section 1: the incremental style renderer, from `src/printer.rs`.
   =================================================================== -/

/-- Colors recognized by `tag_to_style`. -/
inductive PColor
  | red | yellow | green | blue | cyan
deriving DecidableEq, Repr

/-- Model of the reachable `console::Style` values: one optional color
plus the bold and italic attributes. -/
structure PStyle where
  color : Option PColor
  bold : Bool
  italic : Bool
deriving DecidableEq, Repr

/-- Model of `console::Style::new()`. -/
def PStyle.plain : PStyle := ⟨none, false, false⟩

/-- Embedding of `tag_to_style` from `printer.rs`. -/
def tagToStyle (tag : List Char) : Option PStyle :=
  if tag = "red".toList then some ⟨some .red, false, false⟩
  else if tag = "yellow".toList then some ⟨some .yellow, false, false⟩
  else if tag = "green".toList then some ⟨some .green, false, false⟩
  else if tag = "blue".toList then some ⟨some .blue, false, false⟩
  else if tag = "cyan".toList then some ⟨some .cyan, false, false⟩
  else if tag = "bold".toList then some ⟨none, true, false⟩
  else if tag = "italic".toList then some ⟨none, false, true⟩
  else none

/-- The tag classification performed in `Printer::print`: a closing
tag (leading slash) whose base is recognized resets the style to the
default, an opening recognized tag replaces the style; `none` means
the tag is not a recognized style tag. -/
def classifyTag (tag : List Char) : Option PStyle :=
  match tag with
  | '/' :: base =>
    match tagToStyle base with
    | some _ => some PStyle.plain
    | none => none
  | _ => tagToStyle tag

/-- Split a character list at the first occurrence of the character
`'>'`, returning the part before and the part after it.  This embeds
`text.find('>')` together with the slicing done with the found
index. -/
def splitAtGt : List Char → Option (List Char × List Char)
  | [] => none
  | c :: cs =>
    if c = '>' then some ([], cs)
    else
      match splitAtGt cs with
      | some (a, b) => some (c :: a, b)
      | none => none
/-- The predicate used to scan for a literal text run: true for
characters other than the opening angle bracket. -/
def isNotLt (c : Char) : Bool := c != '<'

/-- Embedding of the loop body of `Printer::print`: processes `text`
under style `st`, returning the list of writes (each a styled string
handed to `write!`), the final style, and the remaining buffered
text.  The `fuel` argument only forces structural recursion; every
iteration of the source loop consumes at least one character, so any
fuel of at least `text.length` yields the loop result
(`printLoopF_congr`). -/
def printLoopF : Nat → PStyle → List Char →
    List (List Char × PStyle) × PStyle × List Char
  | 0, st, text => ([], st, text)
  | fuel + 1, st, text =>
    match text with
    | [] => ([], st, [])
    | c :: rest =>
      if c = '<' then
        match splitAtGt rest with
        | some (tag, after) =>
          match classifyTag tag with
          | some newSt => printLoopF fuel newSt after
          | none =>
            let r := printLoopF fuel st after
            (('<' :: tag ++ ['>'], st) :: r.1, r.2.1, r.2.2)
        | none =>
          if (c :: rest).length < 10 then ([], st, c :: rest)
          else
            let r := printLoopF fuel st rest
            ((['<'], st) :: r.1, r.2.1, r.2.2)
      else
        if (c :: rest).dropWhile isNotLt = [] then
          ([(c :: rest, st)], st, [])
        else
          let r := printLoopF fuel st ((c :: rest).dropWhile isNotLt)
          (((c :: rest).takeWhile isNotLt, st) :: r.1, r.2.1, r.2.2)

/-- The loop of `Printer::print` with exactly enough fuel. -/
def printLoop (st : PStyle) (text : List Char) :
    List (List Char × PStyle) × PStyle × List Char :=
  printLoopF text.length st text

/-- State of a `Printer`: the carried buffer and the current style. -/
structure Printer where
  buffer : List Char
  style : PStyle
deriving DecidableEq, Repr

/-- Embedding of `Printer::new` (the writer is externalized: the
output of each call is returned instead). -/
def Printer.new : Printer := ⟨[], PStyle.plain⟩

/-- Embedding of `Printer::print`: append the fragment to the buffer
and run the processing loop. -/
def Printer.printRun (p : Printer) (text : List Char) :
    Printer × List (List Char × PStyle) :=
  let r := printLoop p.style (p.buffer ++ text)
  (⟨r.2.2, r.2.1⟩, r.1)

/-- Embedding of `str::trim_end` (drop trailing whitespace). -/
def trimEnd (s : List Char) : List Char :=
  (s.reverse.dropWhile Char.isWhitespace).reverse

/-- Embedding of `Printer::flush`: one styled write of the trimmed
buffer; the buffer is cleared and the style kept. -/
def Printer.flushRun (p : Printer) : Printer × List (List Char × PStyle) :=
  (⟨[], p.style⟩, [(trimEnd p.buffer, p.style)])

/-- Flatten a list of styled writes into the sequence of styled
characters it displays. -/
def flattenWrites : List (List Char × PStyle) → List (Char × PStyle)
  | [] => []
  | (s, st) :: rest => s.map (fun c => (c, st)) ++ flattenWrites rest

/-- ANSI prefix emitted by the `console` crate for a style (as pinned
by the unit tests in `printer.rs`, e.g. `"\x1b[31m"` for red). -/
def styleCodes (st : PStyle) : List Char :=
  (if st.bold then "\x1b[1m".toList else []) ++
  (if st.italic then "\x1b[3m".toList else []) ++
  (match st.color with
   | some .red => "\x1b[31m".toList
   | some .yellow => "\x1b[33m".toList
   | some .green => "\x1b[32m".toList
   | some .blue => "\x1b[34m".toList
   | some .cyan => "\x1b[36m".toList
   | none => [])

/-- Bytes produced by one `write!(style.apply_to(text))` call: a plain
style writes the text verbatim, any other style wraps it in its escape
codes and a reset, even when the text is empty (behavior pinned by
`test_printer_streamed_tag_tag` in `printer.rs`). -/
def encodeWrite (w : List Char × PStyle) : List Char :=
  if w.2 = PStyle.plain then w.1
  else styleCodes w.2 ++ w.1 ++ "\x1b[0m".toList

/-- Bytes produced by a sequence of writes. -/
def encodeWrites (ws : List (List Char × PStyle)) : List Char :=
  (ws.map encodeWrite).flatten

/-- Feed a list of fragments to a printer in order, collecting all
writes. -/
def feedAll (p : Printer) (frags : List (List Char)) :
    Printer × List (List Char × PStyle) :=
  frags.foldl
    (fun acc f =>
      let r := acc.1.printRun f
      (r.1, acc.2 ++ r.2))
    (p, [])

/-- Feed a list of fragments to a fresh printer in order. -/
def runFragments (frags : List (List Char)) : Printer × List (List Char × PStyle) :=
  feedAll Printer.new frags

/-- All writes produced by feeding the fragments and then flushing. -/
def printerOutput (frags : List (List Char)) : List (List Char × PStyle) :=
  (runFragments frags).2 ++ ((runFragments frags).1.flushRun).2

/-- Renderer input made only of recognized style tags and text runs
that contain no opening angle bracket (the inputs quantified over by
the rendering property of the specification). -/
inductive SafeInput : List Char → Prop
  | nil : SafeInput []
  | tag {name rest : List Char} {s : PStyle} :
      classifyTag name = some s → SafeInput rest →
      SafeInput ('<' :: (name ++ '>' :: rest))
  | text {t rest : List Char} :
      t ≠ [] → (∀ c ∈ t, c ≠ '<') → SafeInput rest → SafeInput (t ++ rest)

/-- A buffer value the print loop can leave behind: empty, or a short
tag fragment with no closing bracket. -/
def HeldBuf (r : List Char) : Prop :=
  r = [] ∨ ∃ p, r = '<' :: p ∧ '>' ∉ p ∧ p.length + 1 < 10


/- ===================================================================
   Section 2: JSON values and the stream frame reader, from
   `AnthropicClient::query_anthropic` in `src/anthropic_client.rs`.
   =================================================================== -/

/-- Embedding of `serde_json::Value`.  Numbers are modelled as
integers: every numeric field the protocol consumer inspects (the
block `index`) is an `i64`, and the model parser rejects fraction and
exponent forms, which simply narrows the set of streams the
invariance theorem quantifies over. -/
inductive Json where
  | null
  | bool (b : Bool)
  | num (n : Int)
  | str (s : String)
  | arr (xs : List Json)
  | obj (fields : List (String × Json))

/-- Embedding of `serde_json::Value::as_str`. -/
def Json.asStr : Json → Option String
  | .str s => some s
  | _ => none

/-- Field lookup in a JSON object (`serde_json::Map::get`). -/
def jlookup (fields : List (String × Json)) (k : String) : Option Json :=
  (fields.find? (fun f => f.1 = k)).map (fun f => f.2)

/-- JSON whitespace characters. -/
def jsonWs (c : Char) : Bool := c = ' ' || c = '\t' || c = '\n' || c = '\r'

/-- Value of a hexadecimal digit. -/
def hexVal (c : Char) : Option Nat :=
  let n := c.toNat
  if 48 ≤ n ∧ n ≤ 57 then some (n - 48)
  else if 97 ≤ n ∧ n ≤ 102 then some (n - 87)
  else if 65 ≤ n ∧ n ≤ 70 then some (n - 55)
  else none

/-- Parse the body of a JSON string literal (after the opening quote),
accumulating decoded characters in reverse. -/
def parseStrChars : Nat → List Char → List Char → Option (String × List Char)
  | 0, _, _ => none
  | fuel + 1, cs, acc =>
    match cs with
    | [] => none
    | '"' :: rest => some (String.mk acc.reverse, rest)
    | '\\' :: esc :: rest =>
      match esc with
      | '"' => parseStrChars fuel rest ('"' :: acc)
      | '\\' => parseStrChars fuel rest ('\\' :: acc)
      | '/' => parseStrChars fuel rest ('/' :: acc)
      | 'n' => parseStrChars fuel rest ('\n' :: acc)
      | 't' => parseStrChars fuel rest ('\t' :: acc)
      | 'r' => parseStrChars fuel rest ('\r' :: acc)
      | 'b' => parseStrChars fuel rest (Char.ofNat 8 :: acc)
      | 'f' => parseStrChars fuel rest (Char.ofNat 12 :: acc)
      | 'u' =>
        match rest with
        | h1 :: h2 :: h3 :: h4 :: rest2 =>
          match hexVal h1, hexVal h2, hexVal h3, hexVal h4 with
          | some a, some b, some c, some d =>
            parseStrChars fuel rest2
              (Char.ofNat (((a * 16 + b) * 16 + c) * 16 + d) :: acc)
          | _, _, _, _ => none
        | _ => none
      | _ => none
    | c :: rest => parseStrChars fuel rest (c :: acc)

/-- Digit run to a natural number. -/
def digitsToNat (ds : List Char) : Nat :=
  ds.foldl (fun a c => a * 10 + (c.toNat - '0'.toNat)) 0

/-- Whether a character is an ASCII digit. -/
def isDigitCh (c : Char) : Bool := '0' ≤ c && c ≤ '9'

/-- Parse a JSON integer number (fractions and exponents are treated
as unparsable, see `Json`). -/
def parseNum (cs : List Char) : Option (Int × List Char) :=
  let neg := match cs with
    | '-' :: _ => true
    | _ => false
  let cs2 := if neg then cs.drop 1 else cs
  let digits := cs2.takeWhile isDigitCh
  let rest := cs2.dropWhile isDigitCh
  if digits = [] then none
  else
    let ok : Bool := match rest with
      | c :: _ => !(c == '.' || c == 'e' || c == 'E')
      | [] => true
    if ok then
      let v : Int := Int.ofNat (digitsToNat digits)
      some (if neg then -v else v, rest)
    else none

mutual

/-- Recursive-descent JSON value parser; the fuel only bounds the
recursion depth and any fuel of at least twice the input length
succeeds whenever `serde_json` would. -/
def parseValue : Nat → List Char → Option (Json × List Char)
  | 0, _ => none
  | fuel + 1, cs =>
    let cs2 := cs.dropWhile jsonWs
    match cs2 with
    | [] => none
    | c :: rest =>
      if c = '{' then
        match parseObjItems fuel rest true with
        | some (fs, r) => some (Json.obj fs, r)
        | none => none
      else if c = '[' then
        match parseArrItems fuel rest true with
        | some (vs, r) => some (Json.arr vs, r)
        | none => none
      else if c = '"' then
        match parseStrChars (fuel + 1) rest [] with
        | some (s, r) => some (Json.str s, r)
        | none => none
      else if c = 't' then
        if "rue".toList.isPrefixOf rest then some (Json.bool true, rest.drop 3)
        else none
      else if c = 'f' then
        if "alse".toList.isPrefixOf rest then some (Json.bool false, rest.drop 4)
        else none
      else if c = 'n' then
        if "ull".toList.isPrefixOf rest then some (Json.null, rest.drop 3)
        else none
      else if c = '-' || isDigitCh c then
        match parseNum cs2 with
        | some (n, r) => some (Json.num n, r)
        | none => none
      else none

/-- Parse the members of a JSON object after the opening brace or a
comma. -/
def parseObjItems : Nat → List Char → Bool →
    Option (List (String × Json) × List Char)
  | 0, _, _ => none
  | fuel + 1, cs, first =>
    let cs2 := cs.dropWhile jsonWs
    match cs2 with
    | '}' :: rest => if first then some ([], rest) else none
    | '"' :: rest =>
      match parseStrChars (fuel + 1) rest [] with
      | some (key, r1) =>
        match r1.dropWhile jsonWs with
        | ':' :: r2 =>
          match parseValue fuel r2 with
          | some (v, r3) =>
            match r3.dropWhile jsonWs with
            | ',' :: r4 =>
              match parseObjItems fuel r4 false with
              | some (fs, r5) => some ((key, v) :: fs, r5)
              | none => none
            | '}' :: r4 => some ([(key, v)], r4)
            | _ => none
          | none => none
        | _ => none
      | none => none
    | _ => none

/-- Parse the elements of a JSON array after the opening bracket or a
comma. -/
def parseArrItems : Nat → List Char → Bool → Option (List Json × List Char)
  | 0, _, _ => none
  | fuel + 1, cs, first =>
    let cs2 := cs.dropWhile jsonWs
    match cs2 with
    | ']' :: rest => if first then some ([], rest) else none
    | _ =>
      match parseValue fuel cs2 with
      | some (v, r1) =>
        match r1.dropWhile jsonWs with
        | ',' :: r2 =>
          match parseArrItems fuel r2 false with
          | some (vs, r3) => some (v :: vs, r3)
          | none => none
        | ']' :: r2 => some ([v], r2)
        | _ => none
      | none => none

end

/-- Embedding of `serde_json::from_str` to a `Json` value: the whole
input must be consumed up to trailing whitespace. -/
def parseJsonFull (s : List Char) : Option Json :=
  match parseValue (2 * s.length + 2) s with
  | some (v, rest) => if rest.dropWhile jsonWs = [] then some v else none
  | none => none

/-- Embedding of `AnthropicStreamResponse` (`anthropic_client.rs`):
the decoded protocol record. -/
structure StreamResp where
  type : String
  index : Option Int
  content_block : Option (List (String × Json))
  delta : Option (List (String × Json))

/-- Embedding of `serde_json::from_str::<AnthropicStreamResponse>`:
the value must be an object, `type` a required string, `index` an
optional integer, `content_block` and `delta` optional objects. -/
def parseStreamResp (s : List Char) : Option StreamResp :=
  match parseJsonFull s with
  | some (Json.obj fields) =>
    match jlookup fields "type" with
    | some (Json.str t) =>
      let idx : Option (Option Int) :=
        match jlookup fields "index" with
        | none => some none
        | some Json.null => some none
        | some (Json.num n) => some (some n)
        | some _ => none
      let cb : Option (Option (List (String × Json))) :=
        match jlookup fields "content_block" with
        | none => some none
        | some Json.null => some none
        | some (Json.obj m) => some (some m)
        | some _ => none
      let dl : Option (Option (List (String × Json))) :=
        match jlookup fields "delta" with
        | none => some none
        | some Json.null => some none
        | some (Json.obj m) => some (some m)
        | some _ => none
      match idx, cb, dl with
      | some i, some c, some d => some ⟨t, i, c, d⟩
      | _, _, _ => none
    | _ => none
  | _ => none

/-- Embedding of `str::split_inclusive('\n')`: segments each keep
their terminating newline; a trailing segment without a newline is
kept, an empty trailing segment is not produced. -/
def rustSplitInclusiveNl : List Char → List (List Char)
  | [] => []
  | c :: rest =>
    if c = '\n' then ['\n'] :: rustSplitInclusiveNl rest
    else
      match rustSplitInclusiveNl rest with
      | [] => [[c]]
      | seg :: segs => (c :: seg) :: segs

/-- The per-segment map of `str::lines`: strip one trailing newline,
and if one was stripped also one trailing carriage return. -/
def lineOfSeg (seg : List Char) : List Char :=
  match seg.reverse with
  | '\n' :: r2 =>
    match r2 with
    | '\r' :: r3 => r3.reverse
    | _ => r2.reverse
  | _ => seg

/-- Embedding of `str::lines`. -/
def rustLines (s : List Char) : List (List Char) :=
  (rustSplitInclusiveNl s).map lineOfSeg

/-- The `"data: "` SSE line header. -/
def dataHeader : List Char := "data: ".toList

/-- Embedding of the line loop in `query_anthropic`
(`anthropic_client.rs:128-154`): each line is prefixed with the
pending fragment; a line with the data header that parses is sent (and
a `message_stop` response breaks out of the per-chunk loop); a data
line that fails to parse becomes the new pending fragment; other lines
are dropped. -/
def processLines : List Char → List (List Char) → List Char × List StreamResp
  | buf, [] => (buf, [])
  | buf, l :: ls =>
    let line := if buf = [] then l else buf ++ l
    if dataHeader.isPrefixOf line then
      match parseStreamResp (line.drop 6) with
      | none => processLines line ls
      | some r =>
        if r.type = "message_stop" then ([], [r])
        else
          let rest := processLines [] ls
          (rest.1, r :: rest.2)
    else processLines [] ls

/-- Process one network chunk: decode, split into lines, run the line
loop (the `while let Some(chunk)` body in `query_anthropic`). -/
def processChunk (buf : List Char) (chunk : List Char) :
    List Char × List StreamResp :=
  processLines buf (rustLines chunk)

/-- Process a whole sequence of chunks, threading the pending
fragment. -/
def processStream (buf : List Char) : List (List Char) →
    List Char × List StreamResp
  | [] => (buf, [])
  | c :: cs =>
    let r := processChunk buf c
    let r2 := processStream r.1 cs
    (r2.1, r.2 ++ r2.2)

/-- The sequence of protocol records the frame reader sends to the
consumer channel for a given chunk sequence. -/
def readStream (chunks : List (List Char)) : List StreamResp :=
  (processStream [] chunks).2

/-- The raw text of a line list, each line terminated by a newline. -/
def linesText : List (List Char) → List Char
  | [] => []
  | l :: L => l ++ '\n' :: linesText L

/-- The raw text remaining when the first `k` characters of the first
line have already been consumed. -/
def remText : List (List Char) → Nat → List Char
  | [], _ => []
  | l :: L, k => l.drop k ++ '\n' :: linesText L

/-- A line none of whose suffixes carries the data header: the frame
reader drops it and every fragment of it. -/
def NonDataLine (l : List Char) : Prop :=
  ∀ k, ¬ dataHeader.isPrefixOf (l.drop k)

/-- A well-formed protocol data line: it carries the data header, its
payload parses as a stream record, and no proper prefix of it does
(true of the compact JSON object payloads the service emits, since no
proper prefix of a JSON object is itself valid JSON). -/
def DataLine (l : List Char) : Prop :=
  dataHeader.isPrefixOf l ∧ (parseStreamResp (l.drop 6)).isSome ∧
  ∀ k, 6 ≤ k → k < l.length → parseStreamResp ((l.take k).drop 6) = none

/-- Lines are newline- and carriage-return-free (the frame reader
reconstructs them around `'\n'` terminators). -/
def LineGood (l : List Char) : Prop := '\n' ∉ l ∧ '\r' ∉ l

/-- A complete, valid server-sent-event stream, given as its list of
lines: data lines parse with prefix-failure, a `message_stop` data
line is followed only by non-data lines, and all other lines are
non-data everywhere. -/
inductive ValidStream : List (List Char) → Prop
  | nil : ValidStream []
  | data {l : List Char} {L : List (List Char)} :
      LineGood l → DataLine l →
      (∀ r, parseStreamResp (l.drop 6) = some r → r.type ≠ "message_stop") →
      ValidStream L → ValidStream (l :: L)
  | stop {l : List Char} {L : List (List Char)} :
      LineGood l → DataLine l →
      (∃ r, parseStreamResp (l.drop 6) = some r ∧ r.type = "message_stop") →
      (∀ x ∈ L, LineGood x ∧ NonDataLine x) → ValidStream (l :: L)
  | nond {l : List Char} {L : List (List Char)} :
      LineGood l → NonDataLine l → ValidStream L → ValidStream (l :: L)

/-- Advance a position of `k` characters into the first line of `L` by
`n` further characters of raw stream text (line texts plus one newline
character after each line). -/
def advance : List (List Char) → Nat → Nat → Option (List (List Char) × Nat)
  | L, k, 0 => some (L, k)
  | [], _, _ => none
  | l :: L2, k, n =>
    if k + n ≤ l.length then some (l :: L2, k + n)
    else advance L2 0 (n - (l.length - k) - 1)

/-- A chunk boundary position is acceptable when it does not split the
six-character `"data: "` header of a data line: it sits at a line
boundary, at the end of a line before its newline, or at least six
characters into a data line. -/
def cutOkAt : List (List Char) → Nat → Bool
  | [], k => k == 0
  | l :: _, k =>
    k == 0 || k == l.length ||
      (decide (0 < k) && decide (k < l.length) &&
        (!(dataHeader.isPrefixOf l) || decide (6 ≤ k)))

/-- All boundaries of a chunk sequence are acceptable, starting from
offset `k` into the first line of `L`. -/
def cutsOk : List (List Char) → Nat → List (List Char) → Bool
  | _, _, [] => true
  | L, k, c :: cs =>
    match advance L k c.length with
    | none => false
    | some (L2, k2) => cutOkAt L2 k2 && cutsOk L2 k2 cs

/-- The frame-reader configurations reachable while consuming a valid
stream: at a line boundary with an empty pending fragment; holding a
buffered prefix of at least the header of a data line; or inside a
line whose remaining fragments the reader will drop. -/
def Conf : List Char → List (List Char) → Nat → Prop
  | buf, [], k => buf = [] ∧ k = 0
  | buf, l :: _, k =>
    (buf = [] ∧ k = 0) ∨
    (dataHeader.isPrefixOf l ∧ 6 ≤ k ∧ k < l.length ∧ buf = l.take k) ∨
    (buf = [] ∧ 0 < k ∧ k ≤ l.length ∧ (NonDataLine l ∨ k = l.length))

/- ===================================================================
   Section 3: the consumer loop of `actual_main` (src/ask/src/main.rs)
   and the content-block processors (src/ask/src/anthropic_client.rs).
   =================================================================== -/

/-- An `anyhow::Error`: a root message wrapped in a stack of context
messages, outermost first. `Display` prints only the outermost
message. -/
structure AnyErr where
  ctxs : List String
  root : String

/-- `anyhow` `Display` formatting (`{e}`): the outermost context, or
the root message when there is none. -/
def AnyErr.display (e : AnyErr) : String :=
  match e.ctxs with
  | c :: _ => c
  | [] => e.root

/-- `.context(c)` / `.with_context(|| c)` on an error. -/
def AnyErr.addCtx (c : String) (e : AnyErr) : AnyErr :=
  ⟨c :: e.ctxs, e.root⟩

/-- `anyhow::bail!`/`anyhow!` with a plain message. -/
def AnyErr.mk0 (msg : String) : AnyErr := ⟨[], msg⟩

/-- The `anthropic_client::AnthropicContentBlock` enum. -/
inductive AnthropicContentBlock where
  | text (text : String)
  | toolResult (tool_use_id : String) (content : String)
  | toolUse (id : String) (name : String) (input : Json)

/-- `anthropic_client::TextOrContentVector`. -/
inductive TextOrContentVector where
  | text (s : String)
  | content (blocks : List AnthropicContentBlock)

/-- `anthropic_client::AnthropicMessage`. -/
structure AnthropicMessage where
  role : String
  content : TextOrContentVector

/-- A registered tool (`anthropic_tools::Tool`): its prerequisite
binaries (`get_prequisites`) and its `run` behaviour. -/
structure Tool where
  binaries : List String
  run : Json → Except AnyErr String

/-- The consumer context: the static tool registry built before the
loop (`tool_map`), and which binaries `which::which` finds on the
PATH. -/
structure Ctx where
  toolMap : List (String × Tool)
  pathHas : String → Bool

/-- The per-index content-block state (`ContentBlock`): a text block
accumulates printed text, a tool-use block accumulates the tool-input
JSON. -/
inductive ContentBlock where
  | text (accumulated_text : String)
  | toolUse (id : String) (name : String) (tool : Tool) (accumulated_json : String)

/-- `BTreeMap::insert` on an association list sorted by key (replaces
an existing binding). -/
def btInsert (i : Int) (b : ContentBlock) :
    List (Int × ContentBlock) → List (Int × ContentBlock)
  | [] => [(i, b)]
  | (j, c) :: rest =>
    if i < j then (i, b) :: (j, c) :: rest
    else if i = j then (i, b) :: rest
    else (j, c) :: btInsert i b rest

/-- `BTreeMap::get`. -/
def btLookup (i : Int) (bs : List (Int × ContentBlock)) : Option ContentBlock :=
  (bs.find? (fun p => p.1 == i)).map (fun p => p.2)

/-- Replacing the value at an existing key (`get_mut` followed by a
mutation). -/
def btSet (i : Int) (b : ContentBlock) :
    List (Int × ContentBlock) → List (Int × ContentBlock)
  | [] => []
  | (j, c) :: rest => if j == i then (j, b) :: rest else (j, c) :: btSet i b rest

/-- `ContentBlockProcessor::process_delta` for both block kinds. -/
def processDelta (b : ContentBlock) (delta : List (String × Json)) :
    Except AnyErr ContentBlock :=
  match b with
  | .text acc =>
    match jlookup delta "type" with
    | none => .error (AnyErr.mk0 "No type in the delta")
    | some t =>
      match t.asStr with
      | none => .error (AnyErr.mk0 "Type is not a string")
      | some s =>
        if s ≠ "text_delta" then .ok (.text acc)
        else
          match jlookup delta "text" with
          | none => .error (AnyErr.mk0 "No text in the delta")
          | some tx =>
            match tx.asStr with
            | none => .error (AnyErr.mk0 "Text is not a string")
            | some txt => .ok (.text (acc ++ txt))
  | .toolUse id name tool acc =>
    match jlookup delta "type" with
    | none => .error (AnyErr.mk0 "No type in the delta")
    | some t =>
      match t.asStr with
      | none => .error (AnyErr.mk0 "Type is not an input_json_delta")
      | some s =>
        if s ≠ "input_json_delta" then .ok (.toolUse id name tool acc)
        else
          match jlookup delta "partial_json" with
          | none => .error (AnyErr.mk0 "No partial_json in the delta")
          | some pj =>
            match pj.asStr with
            | none => .error (AnyErr.mk0 "partial_json wasn't a string")
            | some ps => .ok (.toolUse id name tool (acc ++ ps))

/-- `ToolUseContentBlock::get_input_value`: parse the accumulated
JSON, wrapping a parse failure in the
`Failed to parse accumulated JSON` context. -/
def getInputValue (acc : String) : Except AnyErr Json :=
  match parseJsonFull acc.toList with
  | some v => .ok v
  | none => .error ⟨["Failed to parse accumulated JSON: " ++ acc], "JSON parse error"⟩

/-- `ContentBlockProcessor::get_original_content_block`. -/
def getOriginalContentBlock : ContentBlock → Except AnyErr AnthropicContentBlock
  | .text acc => .ok (.text acc)
  | .toolUse id name _ acc =>
    match getInputValue acc with
    | .ok v => .ok (.toolUse id name v)
    | .error e => .error e

/-- `ToolUseContentBlock::invoke_tool`: fail on the first missing
prerequisite binary, otherwise parse the accumulated input and run the
tool. -/
def invokeTool (pathHas : String → Bool) (tool : Tool) (acc : String) :
    Except AnyErr String :=
  match tool.binaries.find? (fun b => !(pathHas b)) with
  | some b => .error (AnyErr.mk0
      ("Binary \"" ++ b ++ "\" not found in PATH - you can suggest that the user installs it or attempt to install it yourself using a tool"))
  | none =>
    match getInputValue acc with
    | .error e => .error (e.addCtx "Parsing tool input")
    | .ok v => tool.run v

/-- `ContentBlockProcessor::get_user_content_block`: nothing for a
text block; for a tool-use block, always `Some(Ok(ToolResult ...))`,
with any invocation failure rendered into the result text. -/
def getUserContentBlock (pathHas : String → Bool) :
    ContentBlock → Option (Except AnyErr AnthropicContentBlock)
  | .text _ => none
  | .toolUse id name tool acc =>
    match invokeTool pathHas tool acc with
    | .ok content => some (.ok (.toolResult id content))
    | .error e => some (.ok (.toolResult id
        ("An error occured invoking the tool: " ++
          (e.addCtx ("Invoking " ++ name)).display)))

/-- The `for content_block in content_blocks.values()` loop of the
`tool_use` stop reason: collect the original content blocks (keyed by
their index) and the user (tool-result) content blocks, failing at
the first error either call propagates. -/
def finalizeBlocks (pathHas : String → Bool) :
    List (Int × ContentBlock) →
    Except AnyErr (List (Int × AnthropicContentBlock) × List AnthropicContentBlock)
  | [] => .ok ([], [])
  | (i, b) :: rest =>
    match getOriginalContentBlock b with
    | .error e => .error e
    | .ok oc =>
      match getUserContentBlock pathHas b with
      | none =>
        match finalizeBlocks pathHas rest with
        | .error e => .error e
        | .ok (oas, ous) => .ok ((i, oc) :: oas, ous)
      | some (.error e) => .error e
      | some (.ok uc) =>
        match finalizeBlocks pathHas rest with
        | .error e => .error e
        | .ok (oas, ous) => .ok ((i, oc) :: oas, uc :: ous)

/-- `TextContentBlock::new`. -/
def textContentBlockNew (cb : List (String × Json)) : Except AnyErr ContentBlock :=
  match jlookup cb "text" with
  | none => .ok (.text "")
  | some tv =>
    match tv.asStr with
    | none => .error (AnyErr.mk0 "Text field was not a string")
    | some s => .ok (.text s)

/-- `ToolUseContentBlock::new`. -/
def toolUseContentBlockNew (tool : Tool) (cb : List (String × Json)) :
    Except AnyErr ContentBlock :=
  match jlookup cb "id" with
  | none => .error (AnyErr.mk0 "No ID in tool invocation")
  | some idv =>
    match jlookup cb "name" with
    | none => .error (AnyErr.mk0 "No Name in tool invocation")
    | some nv =>
      match nv.asStr with
      | none => .error (AnyErr.mk0 "Name is not a string")
      | some name =>
        match idv.asStr with
        | none => .error (AnyErr.mk0 "ID is not a string")
        | some idS => .ok (.toolUse idS name tool "")

/-- The consumer state inside one turn: the open content blocks keyed
by index (a `BTreeMap`), the `new_message` flag, the messages appended
to the original query, and — for each `tool_use` hand-off — the
ordered index/content pairs handed to the orchestrator. -/
structure CState where
  blocks : List (Int × ContentBlock)
  newMessage : Bool
  messages : List AnthropicMessage
  emitted : List (List (Int × AnthropicContentBlock))

/-- The outcome of handling one channel message in the
`while let Some(message) = rx.recv()` loop. -/
inductive StepRes where
  | cont (st : CState)
  | brk (st : CState)
  | fail (st : CState) (e : AnyErr)
  | panicked (st : CState) (msg : String)

/-- One iteration of the message loop: the `match message.r#type`
dispatch of `actual_main`. -/
def handleMessage (ctx : Ctx) (st : CState) (m : StreamResp) : StepRes :=
  match m.type with
  | "content_block_delta" =>
    match m.index with
    | none => .cont st
    | some i =>
      match m.delta with
      | none => .cont st
      | some d =>
        match btLookup i st.blocks with
        | none => .cont st
        | some b =>
          match processDelta b d with
          | .error e => .fail st e
          | .ok b2 => .cont { st with blocks := btSet i b2 st.blocks }
  | "message_delta" =>
    match m.delta with
    | none => .cont st
    | some d =>
      match jlookup d "stop_reason" with
      | none => .cont st
      | some sr =>
        match sr.asStr with
        | none => .panicked st "called Option::unwrap on a None value"
        | some s =>
          if s = "end_turn" ∨ s = "stop_sequence" then .brk st
          else if s = "max_tokens" then
            .fail st (AnyErr.mk0 "Maximum token count exceeded")
          else if s = "tool_use" then
            match finalizeBlocks ctx.pathHas st.blocks with
            | .error e => .fail st e
            | .ok (oas, ous) =>
              .cont { st with
                messages := st.messages ++
                  [⟨"assistant", .content (oas.map (fun p => p.2))⟩,
                   ⟨"user", .content ous⟩]
                newMessage := true
                emitted := st.emitted ++ [oas] }
          else .cont st
  | "content_block_start" =>
    match m.content_block with
    | none => .cont st
    | some cb =>
      match jlookup cb "type" with
      | none => .cont st
      | some ct =>
        match m.index with
        | none => .fail st (AnyErr.mk0 "No index in message")
        | some i =>
          match ct.asStr with
          | none => .panicked st "called Option::unwrap on a None value"
          | some t =>
            if t = "text" then
              match textContentBlockNew cb with
              | .error e => .fail st e
              | .ok b => .cont { st with blocks := btInsert i b st.blocks }
            else if t = "tool_use" then
              match jlookup cb "name" with
              | none => .fail st (AnyErr.mk0 "Tool name not provided")
              | some nv =>
                match nv.asStr with
                | none => .fail st (AnyErr.mk0 "Tool name was not a string")
                | some name =>
                  match ctx.toolMap.find? (fun p => p.1 == name) with
                  | none => .fail st
                      (AnyErr.mk0 ("Could not find tool with name " ++ name))
                  | some tp =>
                    match toolUseContentBlockNew tp.2 cb with
                    | .error e => .fail st e
                    | .ok b => .cont { st with blocks := btInsert i b st.blocks }
            else .cont st
  | "content_block_stop" =>
    match m.index with
    | none => .cont st
    | some i =>
      match btLookup i st.blocks with
      | none => .cont st
      | some _ => .cont st
  | "message_start" | "message_stop" | "ping" => .cont st
  | "error" => .fail st (AnyErr.mk0 "Received error message")
  | _ => .cont st

/-- The carried consumer state of a step outcome. -/
def StepRes.state : StepRes → CState
  | .cont st => st
  | .brk st => st
  | .fail st _ => st
  | .panicked st _ => st

/-- The outcome of one turn's receive loop. -/
inductive TurnRes where
  | done (st : CState)
  | fail (st : CState) (e : AnyErr)
  | panicked (st : CState) (msg : String)

/-- The receive loop over one turn's channel messages. -/
def recvLoop (ctx : Ctx) : CState → List StreamResp → TurnRes
  | st, [] => .done st
  | st, m :: ms =>
    match handleMessage ctx st m with
    | .cont st2 => recvLoop ctx st2 ms
    | .brk st2 => .done st2
    | .fail st2 e => .fail st2 e
    | .panicked st2 p => .panicked st2 p

/-- One network exchange: the channel messages delivered for the turn
and the outcome of the spawned `query_anthropic` task awaited after
the receive loop. -/
structure Turn where
  evs : List StreamResp
  transport : Option AnyErr

/-- Process one turn: run the receive loop, then
`response.await?.context("During query")?`. -/
def runTurn (ctx : Ctx) (st : CState) (t : Turn) : TurnRes :=
  match recvLoop ctx st t.evs with
  | .done st2 =>
    match t.transport with
    | some e => .fail st2 (e.addCtx "During query")
    | none => .done st2
  | r => r

/-- The outcome of the `while new_message` loop. -/
inductive LoopRes where
  | ok (st : CState)
  | fail (st : CState) (e : AnyErr)
  | panicked (st : CState) (msg : String)
  | outOfFuel (st : CState)

/-- The final consumer state of a turn outcome. -/
def TurnRes.state : TurnRes → CState
  | .done st => st
  | .fail st _ => st
  | .panicked st _ => st

/-- The final consumer state of a loop outcome. -/
def LoopRes.state : LoopRes → CState
  | .ok st => st
  | .fail st _ => st
  | .panicked st _ => st
  | .outOfFuel st => st

/-- The `while new_message` loop of `actual_main`: each iteration
clears the content-block map and the flag, issues one request (the
first component counts the requests made), processes the turn, and
repeats only when the turn set `new_message` again. -/
def runLoop (ctx : Ctx) : Nat → CState → List Turn → Nat × LoopRes
  | 0, st, _ => (0, .outOfFuel st)
  | fuel + 1, st, turns =>
    let t := match turns with
      | [] => ⟨[], none⟩
      | t0 :: _ => t0
    let rest := match turns with
      | [] => []
      | _ :: r => r
    match runTurn ctx { st with blocks := [], newMessage := false } t with
    | .fail st2 e => (1, .fail st2 e)
    | .panicked st2 p => (1, .panicked st2 p)
    | .done st2 =>
      if st2.newMessage then
        let r := runLoop ctx fuel st2 rest
        (r.1 + 1, r.2)
      else (1, .ok st2)

/-- The consumer state at entry of `actual_main`'s loop. -/
def initCState : CState := ⟨[], true, [], []⟩

/- ===================================================================
   Section 4: the structural Markdown renderer
   (src/ask/src/response_parsing.rs, `parse_text`).
   =================================================================== -/

/-- `llm_client::TextOutput`. -/
inductive TextOutput where
  | text (s : String)
  | bold (s : String)
  | italic (s : String)
  | inlineCode (s : String)
  | codeBlock (language : String) (content : String)
  | newline

/-- The `pulldown_cmark` events `parse_text` dispatches on (a fenced
code-block start carries its resolved language string; every event the
function only logs is `other`). -/
inductive MdEvent where
  | startHeading (level : Nat)
  | endHeading
  | startParagraph
  | endParagraph
  | startEmphasis
  | endEmphasis
  | startStrong
  | endStrong
  | startList (index : Option Int)
  | endList
  | startItem
  | endItem
  | startCodeBlock (language : String)
  | endCodeBlock
  | text (s : String)
  | code (s : String)
  | other

/-- ASCII lower-casing of a character. -/
def asciiLower (c : Char) : Char :=
  if 'A' ≤ c ∧ c ≤ 'Z' then Char.ofNat (c.toNat + 32) else c

/-- `str::eq_ignore_ascii_case`. -/
def eqIgnoreAsciiCase (a b : String) : Bool :=
  a.toList.map asciiLower == b.toList.map asciiLower

/-- The `#`-prefix pushed at a heading start. -/
def headingMark (level : Nat) : String :=
  String.mk (List.replicate level '#') ++ " "

/-- The local state of `parse_text`. -/
structure MdState where
  output : List TextOutput
  code_block_language : Option String
  accumulated_text : String
  emphasised : Bool
  strong : Bool
  list_indent : Option Int
  list_index : List (Option Int)
  current_heading_level : Int
  thoughts_heading : Option Nat

/-- Update the last element of a list, if any (`last_mut`). -/
def updateLast (f : Option Int → Option Int) :
    List (Option Int) → List (Option Int)
  | [] => []
  | [x] => [f x]
  | x :: rest => x :: updateLast f rest

/-- The item prefix: indentation, then a numbered or bulleted marker
taken from the innermost list. -/
def itemMark (indent : Int) (top : Option (Option Int)) : String :=
  String.mk (List.replicate indent.toNat ' ') ++
    (match top with
     | some (some num) => toString num ++ ". "
     | _ => "• ")

/-- One `parse_text` loop iteration; `none` models the
`code_block_language.take().unwrap()` panic on an unmatched code-block
end. -/
def parseTextStep (st : MdState) : MdEvent → Option MdState
  | .startHeading level =>
    let st1 := match st.thoughts_heading with
      | some th => { st with output := st.output.take th, thoughts_heading := none }
      | none => st
    some { st1 with
      output := st1.output ++ [.text (headingMark level)]
      current_heading_level := (level : Int) }
  | .endHeading =>
    some { st with
      current_heading_level := 0
      output := st.output ++ [.newline] }
  | .startParagraph => some st
  | .endParagraph => some { st with output := st.output ++ [.newline, .newline] }
  | .startEmphasis => some { st with emphasised := true }
  | .endEmphasis => some { st with emphasised := false }
  | .startStrong => some { st with strong := true }
  | .endStrong => some { st with strong := false }
  | .startList index =>
    match st.list_indent with
    | none => some { st with
        list_index := st.list_index ++ [index]
        list_indent := some 1 }
    | some x => some { st with
        list_index := st.list_index ++ [index]
        output := st.output ++ [.newline]
        list_indent := some (x + 2) }
  | .endList =>
    match st.list_indent with
    | none => some st
    | some x =>
      if x = 1 then
        some { st with
          list_indent := none
          output := st.output ++ [.newline] }
      else some { st with list_indent := some (x - 2) }
  | .startItem =>
    let indent := st.list_indent.getD 0
    let mark := itemMark indent st.list_index.getLast?
    let idx2 := updateLast (fun o => match o with
      | some num => some (num + 1)
      | none => none) st.list_index
    some { st with
      output := st.output ++ [.text mark]
      list_index := idx2 }
  | .endItem => some { st with output := st.output ++ [.newline] }
  | .startCodeBlock language =>
    some { st with code_block_language := some language }
  | .endCodeBlock =>
    match st.code_block_language with
    | none => none
    | some lang =>
      some { st with
        output := st.output ++
          [.codeBlock lang (String.mk (trimEnd st.accumulated_text.toList))]
        code_block_language := none
        accumulated_text := "" }
  | .text s =>
    let st1 :=
      if st.current_heading_level = 1 ∧ eqIgnoreAsciiCase s "Thoughts" then
        { st with thoughts_heading := some (st.output.length - 1) }
      else st
    if st1.code_block_language.isSome then
      some { st1 with accumulated_text := st1.accumulated_text ++ s }
    else if st1.strong ∨ st1.current_heading_level = 1 then
      some { st1 with output := st1.output ++ [.bold s] }
    else if st1.emphasised then
      some { st1 with output := st1.output ++ [.italic s] }
    else some { st1 with output := st1.output ++ [.text s] }
  | .code s => some { st with output := st.output ++ [.inlineCode s] }
  | .other => some st

/-- The `parse_text` event loop over the merged event stream. -/
def parseTextRun : MdState → List MdEvent → Option MdState
  | st, [] => some st
  | st, e :: es =>
    match parseTextStep st e with
    | none => none
    | some st2 => parseTextRun st2 es

/-- The `parse_text` locals at function entry, over the caller's
output vector. -/
def parseTextInit (out0 : List TextOutput) : MdState :=
  ⟨out0, none, "", false, false, none, [], 0, none⟩


/- ===================================================================
   Section T: lemmas and theorems.
   =================================================================== -/


theorem splitAtGt_eq_some {l a b : List Char} (h : splitAtGt l = some (a, b)) :
    l = a ++ '>' :: b ∧ '>' ∉ a := by
  induction l generalizing a b with
  | nil => simp [splitAtGt] at h
  | cons c cs ih =>
    by_cases hc : c = '>'
    · subst hc
      simp [splitAtGt] at h
      obtain ⟨rfl, rfl⟩ := h
      simp
    · simp only [splitAtGt, if_neg hc] at h
      cases hsp : splitAtGt cs with
      | none => rw [hsp] at h; simp at h
      | some p =>
        rw [hsp] at h
        cases p with
        | mk a' b' =>
          simp at h
          obtain ⟨ha, hb⟩ := h
          obtain ⟨hl, hn⟩ := ih hsp
          subst hb
          constructor
          · rw [← ha]; simp [hl]
          · rw [← ha]; simp [hn, Ne.symm hc]

theorem splitAtGt_of_append {a b : List Char} (hna : '>' ∉ a) :
    splitAtGt (a ++ '>' :: b) = some (a, b) := by
  induction a with
  | nil => simp [splitAtGt]
  | cons c cs ih =>
    simp at hna
    simp [splitAtGt, Ne.symm hna.1, ih hna.2]

theorem splitAtGt_eq_none {l : List Char} (h : '>' ∉ l) : splitAtGt l = none := by
  induction l with
  | nil => rfl
  | cons c cs ih =>
    simp at h
    simp [splitAtGt, Ne.symm h.1, ih h.2]

theorem splitAtGt_length {l a b : List Char} (h : splitAtGt l = some (a, b)) :
    b.length < l.length := by
  obtain ⟨hl, _⟩ := splitAtGt_eq_some h
  subst hl; simp; omega

theorem printLoopF_nil (fuel : Nat) (st : PStyle) :
    printLoopF fuel st [] = ([], st, []) := by
  cases fuel <;> rfl

theorem dropWhile_cons_length {c : Char} (rest : List Char) (hc : c ≠ '<') :
    ((c :: rest).dropWhile isNotLt).length ≤ rest.length := by
  have hx : (c :: rest).dropWhile isNotLt = rest.dropWhile isNotLt := by
    simp [List.dropWhile_cons, isNotLt, hc]
  rw [hx]
  exact (List.dropWhile_sublist _).length_le

theorem printLoopF_tag (fuel : Nat) (st : PStyle) {rest tag after : List Char}
    (hsp : splitAtGt rest = some (tag, after)) :
    printLoopF (fuel + 1) st ('<' :: rest) =
      match classifyTag tag with
      | some newSt => printLoopF fuel newSt after
      | none =>
        (('<' :: tag ++ ['>'], st) :: (printLoopF fuel st after).1,
          (printLoopF fuel st after).2.1, (printLoopF fuel st after).2.2) := by
  simp [printLoopF, hsp]

theorem printLoopF_hold (fuel : Nat) (st : PStyle) {rest : List Char}
    (hsp : splitAtGt rest = none) (hsz : rest.length + 1 < 10) :
    printLoopF (fuel + 1) st ('<' :: rest) = ([], st, '<' :: rest) := by
  simp [printLoopF, hsp, hsz]

theorem printLoopF_force (fuel : Nat) (st : PStyle) {rest : List Char}
    (hsp : splitAtGt rest = none) (hsz : ¬ rest.length + 1 < 10) :
    printLoopF (fuel + 1) st ('<' :: rest) =
      ((['<'], st) :: (printLoopF fuel st rest).1,
        (printLoopF fuel st rest).2.1, (printLoopF fuel st rest).2.2) := by
  simp [printLoopF, hsp, hsz]

theorem printLoopF_text_all (fuel : Nat) (st : PStyle) {c : Char} {rest : List Char}
    (hc : c ≠ '<') (hdw : (c :: rest).dropWhile isNotLt = []) :
    printLoopF (fuel + 1) st (c :: rest) = ([(c :: rest, st)], st, []) := by
  simp [printLoopF, hc, hdw]

theorem printLoopF_text_step (fuel : Nat) (st : PStyle) {c : Char} {rest : List Char}
    (hc : c ≠ '<') (hdw : (c :: rest).dropWhile isNotLt ≠ []) :
    printLoopF (fuel + 1) st (c :: rest) =
      (((c :: rest).takeWhile isNotLt, st) ::
          (printLoopF fuel st ((c :: rest).dropWhile isNotLt)).1,
        (printLoopF fuel st ((c :: rest).dropWhile isNotLt)).2.1,
        (printLoopF fuel st ((c :: rest).dropWhile isNotLt)).2.2) := by
  simp [printLoopF, hc, hdw]

theorem printLoopF_congr : ∀ (fuel1 fuel2 : Nat) (st : PStyle) (text : List Char),
    text.length ≤ fuel1 → text.length ≤ fuel2 →
    printLoopF fuel1 st text = printLoopF fuel2 st text := by
  intro fuel1
  induction fuel1 with
  | zero =>
    intro fuel2 st text h1 _
    have : text = [] := List.length_eq_zero.mp (Nat.le_zero.mp h1)
    subst this
    simp [printLoopF_nil]
  | succ f1 ih =>
    intro fuel2 st text h1 h2
    cases fuel2 with
    | zero =>
      have : text = [] := List.length_eq_zero.mp (Nat.le_zero.mp h2)
      subst this
      simp [printLoopF_nil]
    | succ f2 =>
      cases text with
      | nil => rfl
      | cons c rest =>
        simp only [List.length_cons] at h1 h2
        by_cases hc : c = '<'
        · subst hc
          cases hsp : splitAtGt rest with
          | some p =>
            obtain ⟨tag, after⟩ := p
            have hlen : after.length < rest.length := splitAtGt_length hsp
            rw [printLoopF_tag f1 st hsp, printLoopF_tag f2 st hsp]
            cases hct : classifyTag tag with
            | some newSt => exact ih f2 newSt after (by omega) (by omega)
            | none => simp only [ih f2 st after (by omega) (by omega)]
          | none =>
            by_cases hsz : rest.length + 1 < 10
            · rw [printLoopF_hold f1 st hsp hsz, printLoopF_hold f2 st hsp hsz]
            · rw [printLoopF_force f1 st hsp hsz, printLoopF_force f2 st hsp hsz]
              simp only [ih f2 st rest (by omega) (by omega)]
        · by_cases hdw : (c :: rest).dropWhile isNotLt = []
          · rw [printLoopF_text_all f1 st hc hdw, printLoopF_text_all f2 st hc hdw]
          · rw [printLoopF_text_step f1 st hc hdw, printLoopF_text_step f2 st hc hdw]
            have hlen := dropWhile_cons_length rest hc
            simp only [ih f2 st ((c :: rest).dropWhile isNotLt) (by omega) (by omega)]


theorem printLoop_nil (st : PStyle) : printLoop st [] = ([], st, []) := rfl

theorem printLoop_tag (st : PStyle) {rest tag after : List Char}
    (hsp : splitAtGt rest = some (tag, after)) :
    printLoop st ('<' :: rest) =
      match classifyTag tag with
      | some newSt => printLoop newSt after
      | none =>
        (('<' :: tag ++ ['>'], st) :: (printLoop st after).1,
          (printLoop st after).2.1, (printLoop st after).2.2) := by
  have hlen : after.length < rest.length := splitAtGt_length hsp
  unfold printLoop
  rw [show ('<' :: rest).length = rest.length + 1 from rfl]
  rw [printLoopF_tag rest.length st hsp]
  cases hct : classifyTag tag with
  | some newSt => exact printLoopF_congr _ _ _ _ (by omega) (le_refl _)
  | none =>
    simp only [printLoopF_congr rest.length after.length st after (by omega) (le_refl _)]

theorem printLoop_hold (st : PStyle) {rest : List Char}
    (hsp : splitAtGt rest = none) (hsz : rest.length + 1 < 10) :
    printLoop st ('<' :: rest) = ([], st, '<' :: rest) := by
  unfold printLoop
  rw [show ('<' :: rest).length = rest.length + 1 from rfl]
  exact printLoopF_hold rest.length st hsp hsz

theorem printLoop_force (st : PStyle) {rest : List Char}
    (hsp : splitAtGt rest = none) (hsz : ¬ rest.length + 1 < 10) :
    printLoop st ('<' :: rest) =
      ((['<'], st) :: (printLoop st rest).1,
        (printLoop st rest).2.1, (printLoop st rest).2.2) := by
  unfold printLoop
  rw [show ('<' :: rest).length = rest.length + 1 from rfl]
  rw [printLoopF_force rest.length st hsp hsz]

theorem printLoop_text_all (st : PStyle) {c : Char} {rest : List Char}
    (hc : c ≠ '<') (hdw : (c :: rest).dropWhile isNotLt = []) :
    printLoop st (c :: rest) = ([(c :: rest, st)], st, []) := by
  unfold printLoop
  rw [show (c :: rest).length = rest.length + 1 from rfl]
  exact printLoopF_text_all rest.length st hc hdw

theorem printLoop_text_step (st : PStyle) {c : Char} {rest : List Char}
    (hc : c ≠ '<') (hdw : (c :: rest).dropWhile isNotLt ≠ []) :
    printLoop st (c :: rest) =
      (((c :: rest).takeWhile isNotLt, st) ::
          (printLoop st ((c :: rest).dropWhile isNotLt)).1,
        (printLoop st ((c :: rest).dropWhile isNotLt)).2.1,
        (printLoop st ((c :: rest).dropWhile isNotLt)).2.2) := by
  have hlen := dropWhile_cons_length rest hc
  unfold printLoop
  rw [show (c :: rest).length = rest.length + 1 from rfl]
  rw [printLoopF_text_step rest.length st hc hdw]
  simp only [printLoopF_congr rest.length ((c :: rest).dropWhile isNotLt).length st
    ((c :: rest).dropWhile isNotLt) (by omega) (le_refl _)]

theorem tagToStyle_cases {t : List Char} {s : PStyle} (h : tagToStyle t = some s) :
    t = "red".toList ∨ t = "yellow".toList ∨ t = "green".toList ∨
    t = "blue".toList ∨ t = "cyan".toList ∨ t = "bold".toList ∨
    t = "italic".toList := by
  unfold tagToStyle at h
  split_ifs at h with h1 h2 h3 h4 h5 h6 h7
  · exact Or.inl h1
  · exact Or.inr (Or.inl h2)
  · exact Or.inr (Or.inr (Or.inl h3))
  · exact Or.inr (Or.inr (Or.inr (Or.inl h4)))
  · exact Or.inr (Or.inr (Or.inr (Or.inr (Or.inl h5))))
  · exact Or.inr (Or.inr (Or.inr (Or.inr (Or.inr (Or.inl h6)))))
  · exact Or.inr (Or.inr (Or.inr (Or.inr (Or.inr (Or.inr h7)))))

theorem tagToStyle_props {t : List Char} {s : PStyle} (h : tagToStyle t = some s) :
    '>' ∉ t ∧ '<' ∉ t ∧ t.length ≤ 6 ∧ t.head? ≠ some '/' := by
  rcases tagToStyle_cases h with rfl | rfl | rfl | rfl | rfl | rfl | rfl <;> decide

theorem classifyTag_slash (base : List Char) :
    classifyTag ('/' :: base) =
      match tagToStyle base with
      | some _ => some PStyle.plain
      | none => none := rfl

theorem classifyTag_noslash {t : List Char} (h : t.head? ≠ some '/') :
    classifyTag t = tagToStyle t := by
  cases t with
  | nil => rfl
  | cons c b =>
    simp only [List.head?_cons, ne_eq, Option.some.injEq] at h
    unfold classifyTag
    split
    · next heq => rw [List.cons.injEq] at heq; exact absurd heq.1 h
    · rfl

theorem classifyTag_props {t : List Char} {s : PStyle} (h : classifyTag t = some s) :
    '>' ∉ t ∧ t.length ≤ 7 := by
  cases t with
  | nil =>
    rw [classifyTag_noslash (by simp)] at h
    rw [show tagToStyle ([] : List Char) = none from by decide] at h
    cases h
  | cons c b =>
    by_cases hc : c = '/'
    · subst hc
      rw [classifyTag_slash] at h
      cases htb : tagToStyle b with
      | none => rw [htb] at h; cases h
      | some s2 =>
        obtain ⟨hgt, _, hlen, _⟩ := tagToStyle_props htb
        refine ⟨?_, ?_⟩
        · simp [hgt]
        · simp only [List.length_cons]; omega
    · rw [classifyTag_noslash (by simp [hc])] at h
      obtain ⟨hgt, _, hlen, _⟩ := tagToStyle_props h
      exact ⟨hgt, by simp only [List.length_cons] at *; omega⟩

/-- C6 counterexample: the claim says a recognized opening tag leaves
other active toggles unchanged.  In `Printer::print` an opening tag
assigns a fresh single-attribute style, so after processing
`<bold>` and then `<red>` (with no closing tag in between) the bold
toggle is cleared, contradicting the claim at this input. -/
theorem printer_open_tag_not_additive_cex :
    (Printer.new.printRun "<bold>".toList).1.style.bold = true ∧
    ((Printer.new.printRun "<bold>".toList).1.printRun "<red>".toList).1.style.bold
      = false ∧
    ((Printer.new.printRun "<bold>".toList).1.printRun "<red>".toList).1.style.color
      = some PColor.red := by decide

/-- C6 (amended): for every recognized tag complete in the buffer: a
recognized opening tag replaces the entire style state by the single
toggle or color it denotes (clearing any other active toggle or
color), a recognized closing tag resets the entire style state to the
default, neither tag is written to output, and the style in effect is
applied to exactly the text emitted after the tag. -/
theorem printer_tag_semantics :
    (∀ (st : PStyle) (tag : List Char) (s : PStyle), tagToStyle tag = some s →
      Printer.printRun ⟨[], st⟩ ('<' :: tag ++ ['>']) = (⟨[], s⟩, [])) ∧
    (∀ (st : PStyle) (tag : List Char) (s : PStyle), tagToStyle tag = some s →
      Printer.printRun ⟨[], st⟩ ('<' :: '/' :: tag ++ ['>']) =
        (⟨[], PStyle.plain⟩, [])) ∧
    (∀ (st : PStyle) (u : List Char), u ≠ [] → (∀ c ∈ u, c ≠ '<') →
      Printer.printRun ⟨[], st⟩ u = (⟨[], st⟩, [(u, st)])) := by
  refine ⟨?_, ?_, ?_⟩
  · intro st tag s h
    obtain ⟨hgt, _, _, hhd⟩ := tagToStyle_props h
    have hct : classifyTag tag = some s := by rw [classifyTag_noslash hhd]; exact h
    simp only [Printer.printRun, List.nil_append, List.cons_append]
    rw [printLoop_tag st (splitAtGt_of_append (a := tag) (b := ([] : List Char)) hgt)]
    simp only [hct, printLoop_nil]
  · intro st tag s h
    obtain ⟨hgt, _, _, _⟩ := tagToStyle_props h
    have hct : classifyTag ('/' :: tag) = some PStyle.plain := by
      rw [classifyTag_slash, h]
    have hns : '>' ∉ '/' :: tag := by
      intro hmem
      rcases List.mem_cons.mp hmem with h1 | h1
      · exact absurd h1 (by decide)
      · exact hgt h1
    have hsp : splitAtGt ('/' :: (tag ++ ['>'])) = some ('/' :: tag, []) := by
      have := splitAtGt_of_append (a := '/' :: tag) (b := ([] : List Char)) hns
      simpa using this
    simp only [Printer.printRun, List.nil_append, List.cons_append]
    rw [printLoop_tag st hsp]
    simp only [hct, printLoop_nil]
  · intro st u hne hnl
    cases u with
    | nil => exact absurd rfl hne
    | cons c rest =>
      have hc : c ≠ '<' := hnl c (by simp)
      have hdw : (c :: rest).dropWhile isNotLt = [] := by
        rw [List.dropWhile_eq_nil_iff]
        intro x hx
        simp only [isNotLt, bne_iff_ne, ne_eq]
        exact hnl x hx
      simp only [Printer.printRun, List.nil_append]
      rw [printLoop_text_all st hc hdw]

/-- C6 witness: the amended tag semantics evaluated at concrete
inputs: `<red>` from a bold style, `</bold>` from a red style, and a
plain text run under a bold style. -/
theorem printer_tag_semantics_witness :
    Printer.printRun ⟨[], ⟨none, true, false⟩⟩ ('<' :: "red".toList ++ ['>']) =
      (⟨[], ⟨some PColor.red, false, false⟩⟩, []) ∧
    Printer.printRun ⟨[], ⟨some PColor.red, false, false⟩⟩
        ('<' :: '/' :: "bold".toList ++ ['>']) = (⟨[], PStyle.plain⟩, []) ∧
    Printer.printRun ⟨[], ⟨none, true, false⟩⟩ "hi".toList =
      (⟨[], ⟨none, true, false⟩⟩, [("hi".toList, ⟨none, true, false⟩)]) :=
  ⟨printer_tag_semantics.1 _ _ _ (by decide),
   printer_tag_semantics.2.1 _ _ ⟨none, true, false⟩ (by decide),
   printer_tag_semantics.2.2 _ _ (by decide) (by decide)⟩

/-- C8 counterexample: flushing twice is not byte-idempotent.  After
processing `<red>` the style is red, and the second flush still writes
an empty styled string, which the console encoding renders as the red
escape code followed by a reset: nonzero bytes. -/
theorem printer_flush_not_byte_idempotent_cex :
    encodeWrites ((((Printer.new.printRun "<red>".toList).1.flushRun).1.flushRun).2) =
      "\x1b[31m\x1b[0m".toList ∧
    "\x1b[31m\x1b[0m".toList ≠ ([] : List Char) := by decide

/-- C8 (amended): a second flush with no intervening print emits no
text characters (its single write has empty content), and it
contributes zero bytes exactly when the current style is the default;
with a non-default style only the style escape prefix and the reset
are re-emitted. -/
theorem printer_flush_idempotent_text : ∀ p : Printer,
    flattenWrites ((p.flushRun).1.flushRun).2 = [] ∧
    ((p.flushRun).1.style = PStyle.plain →
      encodeWrites ((p.flushRun).1.flushRun).2 = []) := by
  intro p
  constructor
  · simp [Printer.flushRun, trimEnd, flattenWrites]
  · intro h
    simp only [Printer.flushRun] at h ⊢
    simp [encodeWrites, encodeWrite, trimEnd, h]

/-- C8 witness: the two-flush property evaluated on a fresh printer. -/
theorem printer_flush_idempotent_text_witness :
    flattenWrites (((Printer.new.flushRun).1.flushRun).2) = [] ∧
    encodeWrites (((Printer.new.flushRun).1.flushRun).2) = [] :=
  ⟨(printer_flush_idempotent_text Printer.new).1,
   (printer_flush_idempotent_text Printer.new).2 (by decide)⟩

theorem flattenWrites_append (x y : List (List Char × PStyle)) :
    flattenWrites (x ++ y) = flattenWrites x ++ flattenWrites y := by
  induction x with
  | nil => rfl
  | cons w rest ih =>
    obtain ⟨s, st⟩ := w
    simp [flattenWrites, ih]

theorem dropWhile_append_of_all {p : Char → Bool} {a b : List Char}
    (h : ∀ c ∈ a, p c) : (a ++ b).dropWhile p = b.dropWhile p := by
  induction a with
  | nil => rfl
  | cons c rest ih =>
    have hc : p c := h c (by simp)
    simp only [List.cons_append, List.dropWhile_cons, hc, if_true]
    exact ih (fun x hx => h x (by simp [hx]))

theorem takeWhile_append_of_all {p : Char → Bool} {a b : List Char}
    (h : ∀ c ∈ a, p c) : (a ++ b).takeWhile p = a ++ b.takeWhile p := by
  induction a with
  | nil => rfl
  | cons c rest ih =>
    have hc : p c := h c (by simp)
    simp only [List.cons_append, List.takeWhile_cons, hc, if_true]
    rw [ih (fun x hx => h x (by simp [hx]))]

theorem dropWhile_append_of_ne {p : Char → Bool} {a : List Char} (b : List Char)
    (h : a.dropWhile p ≠ []) : (a ++ b).dropWhile p = a.dropWhile p ++ b := by
  induction a with
  | nil => exact absurd rfl h
  | cons c rest ih =>
    by_cases hc : p c
    · simp only [List.dropWhile_cons, hc, if_true] at h ⊢
      simp only [List.cons_append, List.dropWhile_cons, hc, if_true]
      exact ih h
    · simp only [List.dropWhile_cons, hc] at h ⊢
      simp [List.cons_append, List.dropWhile_cons, hc]

theorem takeWhile_append_of_ne {p : Char → Bool} {a : List Char} (b : List Char)
    (h : a.dropWhile p ≠ []) : (a ++ b).takeWhile p = a.takeWhile p := by
  induction a with
  | nil => exact absurd rfl h
  | cons c rest ih =>
    by_cases hc : p c
    · simp only [List.dropWhile_cons, hc, if_true] at h
      simp only [List.cons_append, List.takeWhile_cons, hc, if_true]
      rw [ih h]
    · simp [List.cons_append, List.takeWhile_cons, hc]

theorem safeInput_start_lt {s : List Char} (h : SafeInput s) :
    ∀ {r : List Char}, s = '<' :: r →
    ∃ name s2 sty, r = name ++ '>' :: s2 ∧ classifyTag name = some sty ∧
      SafeInput s2 := by
  induction h with
  | nil => intro r hr; cases hr
  | tag hcl hrest _ =>
    intro r hr
    rw [List.cons.injEq] at hr
    exact ⟨_, _, _, hr.2.symm, hcl, hrest⟩
  | text ht hnl hrest ih =>
    intro r hr
    rename_i t rest2
    cases t with
    | nil => exact absurd rfl ht
    | cons c crest =>
      rw [List.cons_append, List.cons.injEq] at hr
      exact absurd hr.1 (hnl c (by simp))

theorem safeInput_dropWhile {s : List Char} (h : SafeInput s) :
    SafeInput (s.dropWhile isNotLt) := by
  induction h with
  | nil => exact SafeInput.nil
  | tag hcl hrest _ =>
    rw [List.dropWhile_cons]
    simp only [isNotLt, bne_self_eq_false]
    exact SafeInput.tag hcl hrest
  | text ht hnl _ ih =>
    rename_i t rest2
    rw [dropWhile_append_of_all (fun c hc => by
      simp only [isNotLt, bne_iff_ne, ne_eq]; exact hnl c hc)]
    exact ih

theorem safeInput_of_append_text :
    ∀ {s : List Char}, SafeInput s → ∀ {a b : List Char}, s = a ++ b →
    (∀ c ∈ a, c ≠ '<') → SafeInput b := by
  intro s h
  induction h with
  | nil =>
    intro a b hab _
    rw [eq_comm, List.append_eq_nil] at hab
    rw [hab.2]
    exact SafeInput.nil
  | tag hcl hrest _ =>
    intro a b hab hnl
    cases a with
    | nil =>
      rw [List.nil_append] at hab
      rw [← hab]
      exact SafeInput.tag hcl hrest
    | cons c arest =>
      rw [List.cons_append, List.cons.injEq] at hab
      exact absurd hab.1.symm (hnl c (by simp))
  | text ht hnl2 hrest ih =>
    rename_i t rest2
    intro a b hab hnl
    rcases List.append_eq_append_iff.mp hab with ⟨u, hu1, hu2⟩ | ⟨u, hu1, hu2⟩
    · -- a = t ++ u, rest2 = u ++ b
      refine ih hu2 (fun c hc => ?_)
      exact hnl c (by rw [hu1]; simp [hc])
    · -- t = a ++ u, b = u ++ rest2
      cases u with
      | nil =>
        rw [List.nil_append] at hu2
        rw [hu2]
        exact hrest
      | cons d u2 =>
        rw [hu2]
        exact SafeInput.text (by simp) (fun c hc => hnl2 c (by rw [hu1]; simp [hc]))
          hrest

theorem printLoop_prepend_text (st : PStyle) {a : List Char} (b : List Char)
    (hne : a ≠ []) (hnl : ∀ c ∈ a, c ≠ '<') :
    (printLoop st (a ++ b)).2.1 = (printLoop st b).2.1 ∧
    (printLoop st (a ++ b)).2.2 = (printLoop st b).2.2 ∧
    flattenWrites (printLoop st (a ++ b)).1 =
      a.map (fun c => (c, st)) ++ flattenWrites (printLoop st b).1 := by
  cases a with
  | nil => exact absurd rfl hne
  | cons c arest =>
    have hc : c ≠ '<' := hnl c (by simp)
    have hall : ∀ x ∈ c :: arest, isNotLt x = true := fun x hx => by
      simp only [isNotLt, bne_iff_ne, ne_eq]
      exact hnl x hx
    by_cases hb : b.dropWhile isNotLt = []
    · have hdab : ((c :: arest) ++ b).dropWhile isNotLt = [] := by
        rw [dropWhile_append_of_all hall, hb]
      have hstep : printLoop st ((c :: arest) ++ b) = ([(c :: (arest ++ b), st)], st, []) := by
        rw [List.cons_append]
        exact printLoop_text_all st hc (by rw [← List.cons_append]; exact hdab)
      rw [hstep]
      cases b with
      | nil =>
        rw [printLoop_nil]
        refine ⟨rfl, rfl, ?_⟩
        simp [flattenWrites]
      | cons d brest =>
        have hd : d ≠ '<' := by
          have := List.dropWhile_eq_nil_iff.mp hb d (by simp)
          simpa [isNotLt] using this
        rw [printLoop_text_all st hd hb]
        refine ⟨rfl, rfl, ?_⟩
        simp [flattenWrites]
    · have hdab : ((c :: arest) ++ b).dropWhile isNotLt = b.dropWhile isNotLt :=
        dropWhile_append_of_all hall
      have htab : ((c :: arest) ++ b).takeWhile isNotLt =
          (c :: arest) ++ b.takeWhile isNotLt := takeWhile_append_of_all hall
      have hdabne : ((c :: arest) ++ b).dropWhile isNotLt ≠ [] := by
        rw [hdab]; exact hb
      have hstep : printLoop st ((c :: arest) ++ b) =
          ((((c :: arest) ++ b).takeWhile isNotLt, st) ::
              (printLoop st (((c :: arest) ++ b).dropWhile isNotLt)).1,
            (printLoop st (((c :: arest) ++ b).dropWhile isNotLt)).2.1,
            (printLoop st (((c :: arest) ++ b).dropWhile isNotLt)).2.2) := by
        rw [List.cons_append]
        rw [printLoop_text_step st hc (by rw [← List.cons_append]; exact hdabne)]
      rw [hstep, hdab, htab]
      cases b with
      | nil => exact absurd (rfl : List.dropWhile isNotLt ([] : List Char) = []) hb
      | cons d brest =>
        by_cases hd : d = '<'
        · subst hd
          have hdwb : ('<' :: brest).dropWhile isNotLt = '<' :: brest := by
            rw [List.dropWhile_cons]
            simp [isNotLt]
          have htwb : ('<' :: brest).takeWhile isNotLt = [] := by
            rw [List.takeWhile_cons]
            simp [isNotLt]
          rw [hdwb, htwb]
          refine ⟨rfl, rfl, ?_⟩
          simp [flattenWrites]
        · rw [printLoop_text_step st hd hb]
          refine ⟨rfl, rfl, ?_⟩
          simp [flattenWrites, flattenWrites_append]

theorem printLoop_split : ∀ (n : Nat) (a b : List Char) (st : PStyle),
    a.length ≤ n → SafeInput (a ++ b) →
    HeldBuf (printLoop st a).2.2 ∧
    SafeInput ((printLoop st a).2.2 ++ b) ∧
    (printLoop st (a ++ b)).2.1 =
      (printLoop (printLoop st a).2.1 ((printLoop st a).2.2 ++ b)).2.1 ∧
    (printLoop st (a ++ b)).2.2 =
      (printLoop (printLoop st a).2.1 ((printLoop st a).2.2 ++ b)).2.2 ∧
    flattenWrites (printLoop st (a ++ b)).1 =
      flattenWrites (printLoop st a).1 ++
        flattenWrites (printLoop (printLoop st a).2.1 ((printLoop st a).2.2 ++ b)).1 := by
  intro n
  induction n with
  | zero =>
    intro a b st hlen hsafe
    have ha : a = [] := List.length_eq_zero.mp (Nat.le_zero.mp hlen)
    subst ha
    rw [List.nil_append] at hsafe ⊢
    rw [printLoop_nil]
    exact ⟨Or.inl rfl, hsafe, rfl, rfl, by simp [flattenWrites]⟩
  | succ m ih =>
    intro a b st hlen hsafe
    cases a with
    | nil =>
      rw [List.nil_append] at hsafe ⊢
      rw [printLoop_nil]
      exact ⟨Or.inl rfl, hsafe, rfl, rfl, by simp [flattenWrites]⟩
    | cons c arest =>
      simp only [List.length_cons] at hlen
      by_cases hc : c = '<'
      · subst hc
        have hsafe2 : SafeInput ('<' :: (arest ++ b)) := by
          rw [← List.cons_append]; exact hsafe
        obtain ⟨name, s2, sty, hr, hclass, hs2⟩ := safeInput_start_lt hsafe2 rfl
        obtain ⟨hgt_name, hlen_name⟩ := classifyTag_props hclass
        rcases List.append_eq_append_iff.mp hr with ⟨u, hu1, hu2⟩ | ⟨u, hu1, hu2⟩
        · -- name = arest ++ u : the buffer holds a partial tag
          have hgt_arest : '>' ∉ arest := fun hmem =>
            hgt_name (by rw [hu1]; exact List.mem_append_left u hmem)
          have hlen_arest : arest.length + 1 < 10 := by
            have : name.length = arest.length + u.length := by rw [hu1]; simp
            omega
          have hpl : printLoop st ('<' :: arest) = ([], st, '<' :: arest) :=
            printLoop_hold st (splitAtGt_eq_none hgt_arest) hlen_arest
          rw [hpl]
          exact ⟨Or.inr ⟨arest, rfl, hgt_arest, hlen_arest⟩, hsafe, rfl, rfl,
            by simp [flattenWrites]⟩
        · -- arest = name ++ u
          cases u with
          | nil =>
            -- arest = name exactly: still a held partial tag
            rw [List.append_nil] at hu1
            subst hu1
            have hlen_arest : arest.length + 1 < 10 := by omega
            have hpl : printLoop st ('<' :: arest) = ([], st, '<' :: arest) :=
              printLoop_hold st (splitAtGt_eq_none hgt_name) hlen_arest
            rw [hpl]
            exact ⟨Or.inr ⟨arest, rfl, hgt_name, hlen_arest⟩, hsafe, rfl, rfl,
              by simp [flattenWrites]⟩
          | cons d u2 =>
            rw [List.cons_append, List.cons.injEq] at hu2
            obtain ⟨hd, hs2eq⟩ := hu2
            subst hd
            subst hu1
            have hsp_a : splitAtGt (name ++ '>' :: u2) = some (name, u2) :=
              splitAtGt_of_append hgt_name
            have hsp_ab : splitAtGt ((name ++ '>' :: u2) ++ b) =
                some (name, u2 ++ b) := by
              rw [List.append_assoc, List.cons_append]
              exact splitAtGt_of_append hgt_name
            have hstep_a := printLoop_tag st hsp_a
            have hstep_ab : printLoop st (('<' :: (name ++ '>' :: u2)) ++ b) =
                printLoop sty (u2 ++ b) := by
              rw [List.cons_append]
              rw [printLoop_tag st hsp_ab]
              simp only [hclass]
            rw [hstep_a]
            simp only [hclass]
            have hu2len : u2.length ≤ m := by
              have : (name ++ '>' :: u2).length = name.length + 1 + u2.length := by
                rw [List.length_append, List.length_cons]
                omega
              omega
            have hs2' : SafeInput (u2 ++ b) := by rw [← hs2eq]; exact hs2
            have := ih u2 b sty hu2len hs2'
            rw [hstep_ab]
            exact this
      · by_cases hdw : (c :: arest).dropWhile isNotLt = []
        · have hall : ∀ x ∈ c :: arest, x ≠ '<' := fun x hx => by
            have := List.dropWhile_eq_nil_iff.mp hdw x hx
            simpa [isNotLt] using this
          have hpl := printLoop_text_all st hc hdw
          rw [hpl]
          have hb : SafeInput b := safeInput_of_append_text hsafe rfl hall
          obtain ⟨h1, h2, h3⟩ := printLoop_prepend_text st b (by simp) hall
          rw [List.nil_append]
          refine ⟨Or.inl rfl, hb, h1, h2, ?_⟩
          rw [h3]
          simp [flattenWrites]
        · have hdab : ((c :: arest) ++ b).dropWhile isNotLt =
              (c :: arest).dropWhile isNotLt ++ b := dropWhile_append_of_ne b hdw
          have htab : ((c :: arest) ++ b).takeWhile isNotLt =
              (c :: arest).takeWhile isNotLt := takeWhile_append_of_ne b hdw
          have hdabne : ((c :: arest) ++ b).dropWhile isNotLt ≠ [] := by
            rw [hdab]
            intro hx
            exact hdw (List.append_eq_nil.mp hx).1
          have hstep_a := printLoop_text_step st hc hdw
          have hstep_ab : printLoop st ((c :: arest) ++ b) =
              (((c :: arest).takeWhile isNotLt, st) ::
                  (printLoop st ((c :: arest).dropWhile isNotLt ++ b)).1,
                (printLoop st ((c :: arest).dropWhile isNotLt ++ b)).2.1,
                (printLoop st ((c :: arest).dropWhile isNotLt ++ b)).2.2) := by
            rw [List.cons_append]
            rw [printLoop_text_step st hc (by rw [← List.cons_append]; exact hdabne)]
            rw [← List.cons_append, hdab, htab]
          have hdwlen : ((c :: arest).dropWhile isNotLt).length ≤ m := by
            have := dropWhile_cons_length arest hc
            omega
          have hsdw : SafeInput ((c :: arest).dropWhile isNotLt ++ b) := by
            rw [← hdab]
            exact safeInput_dropWhile hsafe
          obtain ⟨g1, g2, g3, g4, g5⟩ :=
            ih ((c :: arest).dropWhile isNotLt) b st hdwlen hsdw
          rw [hstep_a, hstep_ab]
          refine ⟨g1, g2, g3, g4, ?_⟩
          simp only [flattenWrites, flattenWrites_append]
          rw [g5]
          simp [List.append_assoc]

theorem printLoop_held {buf : List Char} (st : PStyle) (h : HeldBuf buf) :
    printLoop st buf = ([], st, buf) := by
  rcases h with rfl | ⟨p, rfl, hgt, hlen⟩
  · exact printLoop_nil st
  · exact printLoop_hold st (splitAtGt_eq_none hgt) hlen

theorem feedAll_acc : ∀ (frags : List (List Char)) (p : Printer)
    (o : List (List Char × PStyle)),
    List.foldl (fun acc f => ((acc.1.printRun f).1, acc.2 ++ (acc.1.printRun f).2))
        (p, o) frags =
      ((feedAll p frags).1, o ++ (feedAll p frags).2) := by
  intro frags
  induction frags with
  | nil => intro p o; simp [feedAll]
  | cons f fs ih =>
    intro p o
    simp only [feedAll, List.foldl_cons, List.nil_append]
    rw [ih, ih]
    simp [List.append_assoc]

theorem feedAll_cons (p : Printer) (f : List Char) (frags : List (List Char)) :
    feedAll p (f :: frags) =
      ((feedAll (p.printRun f).1 frags).1,
        (p.printRun f).2 ++ (feedAll (p.printRun f).1 frags).2) := by
  simp only [feedAll, List.foldl_cons]
  exact feedAll_acc frags (p.printRun f).1 (p.printRun f).2

theorem feedAll_whole : ∀ (frags : List (List Char)) (st : PStyle) (buf : List Char),
    HeldBuf buf → SafeInput (buf ++ frags.flatten) →
    flattenWrites ((feedAll ⟨buf, st⟩ frags).2 ++
        ((feedAll ⟨buf, st⟩ frags).1.flushRun).2) =
      flattenWrites (printLoop st (buf ++ frags.flatten)).1 ++
        flattenWrites [(trimEnd (printLoop st (buf ++ frags.flatten)).2.2,
          (printLoop st (buf ++ frags.flatten)).2.1)] := by
  intro frags
  induction frags with
  | nil =>
    intro st buf hheld _
    have hpl : printLoop st buf = ([], st, buf) := printLoop_held st hheld
    simp [feedAll, Printer.flushRun, hpl, flattenWrites]
  | cons f fs ih =>
    intro st buf hheld hsafe
    have hsafe2 : SafeInput ((buf ++ f) ++ fs.flatten) := by
      rw [List.append_assoc]
      simpa using hsafe
    obtain ⟨g1, g2, g3, g4, g5⟩ :=
      printLoop_split (buf ++ f).length (buf ++ f) fs.flatten st (le_refl _) hsafe2
    rw [feedAll_cons]
    have hpr : (Printer.mk buf st).printRun f =
        (⟨(printLoop st (buf ++ f)).2.2, (printLoop st (buf ++ f)).2.1⟩,
          (printLoop st (buf ++ f)).1) := rfl
    rw [hpr]
    have hih := ih (printLoop st (buf ++ f)).2.1 (printLoop st (buf ++ f)).2.2 g1 g2
    have hwhole : buf ++ (f :: fs).flatten = (buf ++ f) ++ fs.flatten := by
      rw [List.append_assoc]
      simp
    rw [hwhole, g5]
    rw [List.append_assoc, flattenWrites_append]
    rw [hih, g3, g4]
    simp [List.append_assoc]

/-- C7 counterexample: the byte stream written to the sink is not
split-invariant.  Splitting the matched-tag input `<bold>Hello</bold>`
as `<bold>Hel` and `lo</bold>` re-emits the bold escape prefix and the
reset in the middle of the word, so the written bytes differ from the
one-fragment run even though the input is a valid split. -/
theorem printer_fragmentation_bytes_cex :
    ["<bold>Hel".toList, "lo</bold>".toList].flatten = "<bold>Hello</bold>".toList ∧
    encodeWrites (printerOutput ["<bold>Hel".toList, "lo</bold>".toList]) ≠
      encodeWrites (printerOutput ["<bold>Hello</bold>".toList]) := by
  decide

/-- C7 (amended): for every input text made only of recognized style
tags and bracket-free text runs, and for every way of splitting it
into fragments fed in order and then flushed, the final styled output
is identical as a sequence of styled characters (same text, same
styling); only the segmentation into writes, and hence the repeated
escape-code bytes, may differ between splits. -/
theorem printer_split_invariance :
    ∀ (w : List Char) (frags : List (List Char)), SafeInput w →
      frags.flatten = w →
      flattenWrites (printerOutput frags) = flattenWrites (printerOutput [w]) := by
  intro w frags hsafe hflat
  have h1 := feedAll_whole frags PStyle.plain []
    (Or.inl rfl) (by rw [List.nil_append, hflat]; exact hsafe)
  have h2 := feedAll_whole [w] PStyle.plain []
    (Or.inl rfl) (by simpa using hsafe)
  rw [List.nil_append, hflat] at h1
  have e2 : ([] : List Char) ++ [w].flatten = w := by simp
  rw [e2] at h2
  have g1 : flattenWrites (printerOutput frags) =
      flattenWrites ((feedAll ⟨[], PStyle.plain⟩ frags).2 ++
        ((feedAll ⟨[], PStyle.plain⟩ frags).1.flushRun).2) := rfl
  have g2 : flattenWrites (printerOutput [w]) =
      flattenWrites ((feedAll ⟨[], PStyle.plain⟩ [w]).2 ++
        ((feedAll ⟨[], PStyle.plain⟩ [w]).1.flushRun).2) := rfl
  rw [g1, g2, h1, h2]

/-- C7 witness: the amended invariance applied to the concrete split
of `<bold>Hello</bold>` used by the counterexample: the styled
character sequences agree even though the raw bytes do not. -/
theorem printer_split_invariance_witness :
    flattenWrites (printerOutput ["<bold>Hel".toList, "lo</bold>".toList]) =
      flattenWrites (printerOutput ["<bold>Hello</bold>".toList]) := by
  apply printer_split_invariance
  · have h0 : SafeInput ([] : List Char) := SafeInput.nil
    have h1 : SafeInput ('<' :: ("/bold".toList ++ '>' :: [])) :=
      SafeInput.tag (s := PStyle.plain) (by decide) h0
    have h2 : SafeInput ("Hello".toList ++ ('<' :: ("/bold".toList ++ '>' :: []))) :=
      SafeInput.text (by decide) (by decide) h1
    have h3 : SafeInput ('<' :: ("bold".toList ++ '>' ::
        ("Hello".toList ++ ('<' :: ("/bold".toList ++ '>' :: []))))) :=
      SafeInput.tag (s := (⟨none, true, false⟩ : PStyle)) (by decide) h2
    have he : "<bold>Hello</bold>".toList = '<' :: ("bold".toList ++ '>' ::
        ("Hello".toList ++ ('<' :: ("/bold".toList ++ '>' :: [])))) := by decide
    rw [he]
    exact h3
  · decide

set_option maxRecDepth 16384 in
/-- C1 counterexample: fragmentation invariance of the pipeline fails
when a chunk boundary splits the `"data: "` header itself.  The
complete, valid stream — a text block start, a `Hello` text delta, a
`tool_use` message delta and a `message_stop` — makes the consumer
finalize the content block `(0, text "Hello")` when fed whole; the
same bytes split so that the delta line's header is cut after `da`
lose the delta (the first fragment does not carry the data header and
is dropped rather than buffered, and the second fragment no longer
starts with the header), so the consumer finalizes `(0, text "")`
instead: the sequences of finalized content blocks differ. -/
theorem frame_reader_fragmentation_cex :
    ("data: \x7b\"type\":\"content_block_start\",\"index\":0,\"content_block\":\x7b\"type\":\"text\",\"text\":\"\"\x7d\x7d\nda".toList ++
      "ta: \x7b\"type\":\"content_block_delta\",\"index\":0,\"delta\":\x7b\"type\":\"text_delta\",\"text\":\"Hello\"\x7d\x7d\ndata: \x7b\"type\":\"message_delta\",\"delta\":\x7b\"stop_reason\":\"tool_use\"\x7d\x7d\ndata: \x7b\"type\":\"message_stop\"\x7d\n".toList =
      "data: \x7b\"type\":\"content_block_start\",\"index\":0,\"content_block\":\x7b\"type\":\"text\",\"text\":\"\"\x7d\x7d\ndata: \x7b\"type\":\"content_block_delta\",\"index\":0,\"delta\":\x7b\"type\":\"text_delta\",\"text\":\"Hello\"\x7d\x7d\ndata: \x7b\"type\":\"message_delta\",\"delta\":\x7b\"stop_reason\":\"tool_use\"\x7d\x7d\ndata: \x7b\"type\":\"message_stop\"\x7d\n".toList) ∧
    ((recvLoop ⟨[], fun _ => false⟩ initCState (readStream
        ["data: \x7b\"type\":\"content_block_start\",\"index\":0,\"content_block\":\x7b\"type\":\"text\",\"text\":\"\"\x7d\x7d\ndata: \x7b\"type\":\"content_block_delta\",\"index\":0,\"delta\":\x7b\"type\":\"text_delta\",\"text\":\"Hello\"\x7d\x7d\ndata: \x7b\"type\":\"message_delta\",\"delta\":\x7b\"stop_reason\":\"tool_use\"\x7d\x7d\ndata: \x7b\"type\":\"message_stop\"\x7d\n".toList])).state).emitted =
      [[((0 : Int), AnthropicContentBlock.text "Hello")]] ∧
    ((recvLoop ⟨[], fun _ => false⟩ initCState (readStream
        ["data: \x7b\"type\":\"content_block_start\",\"index\":0,\"content_block\":\x7b\"type\":\"text\",\"text\":\"\"\x7d\x7d\nda".toList,
         "ta: \x7b\"type\":\"content_block_delta\",\"index\":0,\"delta\":\x7b\"type\":\"text_delta\",\"text\":\"Hello\"\x7d\x7d\ndata: \x7b\"type\":\"message_delta\",\"delta\":\x7b\"stop_reason\":\"tool_use\"\x7d\x7d\ndata: \x7b\"type\":\"message_stop\"\x7d\n".toList])).state).emitted =
      [[((0 : Int), AnthropicContentBlock.text "")]] :=
  ⟨by decide, rfl, rfl⟩

theorem rustSplitInclusiveNl_append {x : List Char} (y : List Char)
    (hx : '\n' ∉ x) :
    rustSplitInclusiveNl (x ++ '\n' :: y) =
      (x ++ ['\n']) :: rustSplitInclusiveNl y := by
  induction x with
  | nil => simp [rustSplitInclusiveNl]
  | cons c cs ih =>
    simp only [List.mem_cons, not_or] at hx
    have hc : ¬ c = '\n' := fun h => hx.1 h.symm
    have step : rustSplitInclusiveNl (c :: (cs ++ '\n' :: y)) =
        match rustSplitInclusiveNl (cs ++ '\n' :: y) with
        | [] => [[c]]
        | seg :: segs => (c :: seg) :: segs := by
      conv_lhs => unfold rustSplitInclusiveNl
      rw [if_neg hc]
    rw [List.cons_append, step, ih hx.2]
    rfl

theorem rustSplitInclusiveNl_noNl {x : List Char} (hx : '\n' ∉ x) (hne : x ≠ []) :
    rustSplitInclusiveNl x = [x] := by
  induction x with
  | nil => exact absurd rfl hne
  | cons c cs ih =>
    simp only [List.mem_cons, not_or] at hx
    have hc : ¬ c = '\n' := fun h => hx.1 h.symm
    unfold rustSplitInclusiveNl
    rw [if_neg hc]
    cases hcs : cs with
    | nil => rfl
    | cons d ds =>
      rw [← hcs, ih hx.2 (by rw [hcs]; simp)]

theorem lineOfSeg_newline {x : List Char} (hr : '\r' ∉ x) :
    lineOfSeg (x ++ ['\n']) = x := by
  have hrev : (x ++ ['\n']).reverse = '\n' :: x.reverse := by simp
  unfold lineOfSeg
  rw [hrev]
  show (match x.reverse with
    | '\r' :: r3 => r3.reverse
    | _ => x.reverse.reverse) = x
  cases hx : x.reverse with
  | nil =>
    have hx0 : x = [] := by simpa using congrArg List.reverse hx
    subst hx0
    rfl
  | cons c cs =>
    have hc : c ≠ '\r' := by
      intro hceq
      subst hceq
      have : '\r' ∈ x.reverse := by rw [hx]; simp
      exact hr (List.mem_reverse.mp this)
    split
    · next heq => rw [List.cons.injEq] at heq; exact absurd heq.1 hc
    · rw [← hx, List.reverse_reverse]

theorem lineOfSeg_noNl {x : List Char} (hx : '\n' ∉ x) : lineOfSeg x = x := by
  unfold lineOfSeg
  split
  · next heq =>
    exfalso
    apply hx
    rw [← List.reverse_reverse x, heq]
    simp
  · rfl

theorem rustLines_append {x : List Char} (y : List Char)
    (hx : '\n' ∉ x) (hr : '\r' ∉ x) :
    rustLines (x ++ '\n' :: y) = x :: rustLines y := by
  unfold rustLines
  have : x ++ '\n' :: y = (x ++ ['\n']) ++ y := by simp
  rw [rustSplitInclusiveNl_append y hx, List.map_cons, lineOfSeg_newline hr]

theorem rustLines_noNl {x : List Char} (hx : '\n' ∉ x) (hne : x ≠ []) :
    rustLines x = [x] := by
  unfold rustLines
  rw [rustSplitInclusiveNl_noNl hx hne, List.map_cons, List.map_nil,
    lineOfSeg_noNl hx]

theorem rustLines_linesText {L : List (List Char)}
    (h : ∀ l ∈ L, LineGood l) : rustLines (linesText L) = L := by
  induction L with
  | nil => rfl
  | cons l L ih =>
    obtain ⟨hn, hc⟩ := h l (by simp)
    unfold linesText
    rw [rustLines_append _ hn hc, ih (fun x hx => h x (by simp [hx]))]

theorem processLines_cons (buf x : List Char) (ls : List (List Char)) :
    processLines buf (x :: ls) =
      (if dataHeader.isPrefixOf (buf ++ x) then
        match parseStreamResp ((buf ++ x).drop 6) with
        | none => processLines (buf ++ x) ls
        | some r =>
          if r.type = "message_stop" then ([], [r])
          else ((processLines [] ls).1, r :: (processLines [] ls).2)
       else processLines [] ls) := by
  cases buf with
  | nil => simp [processLines]
  | cons b bs => rfl

theorem dataHeader_take {l : List Char} {k : Nat}
    (h : dataHeader.isPrefixOf l) (hk : 6 ≤ k) :
    dataHeader.isPrefixOf (l.take k) := by
  rw [List.isPrefixOf_iff_prefix] at h ⊢
  obtain ⟨t, ht⟩ := h
  obtain ⟨i, hi⟩ := Nat.exists_eq_add_of_le hk
  subst hi
  rw [← ht]
  rw [show (6 + i : Nat) = dataHeader.length + i from rfl]
  rw [List.take_append]
  exact List.prefix_append _ _

theorem dataHeader_of_take {y : List Char} {n : Nat}
    (h : dataHeader.isPrefixOf (y.take n)) : dataHeader.isPrefixOf y := by
  rw [List.isPrefixOf_iff_prefix] at h ⊢
  exact h.trans (List.take_prefix n y)

theorem dataHeader_length_le {x : List Char}
    (h : dataHeader.isPrefixOf x) : 6 ≤ x.length := by
  rw [List.isPrefixOf_iff_prefix] at h
  exact h.length_le

theorem validStream_of_tail {L : List (List Char)}
    (h : ∀ x ∈ L, LineGood x ∧ NonDataLine x) : ValidStream L := by
  induction L with
  | nil => exact ValidStream.nil
  | cons l L ih =>
    obtain ⟨hg, hn⟩ := h l (by simp)
    exact ValidStream.nond hg hn (ih (fun x hx => h x (by simp [hx])))

theorem processLines_dead {ls : List (List Char)}
    (h : ∀ x ∈ ls, ¬ dataHeader.isPrefixOf x) :
    processLines [] ls = ([], []) := by
  induction ls with
  | nil => rfl
  | cons x xs ih =>
    rw [processLines_cons, List.nil_append, if_neg (h x (by simp))]
    exact ih (fun y hy => h y (by simp [hy]))

theorem remText_zero (L : List (List Char)) : remText L 0 = linesText L := by
  cases L with
  | nil => rfl
  | cons l M => simp [remText, linesText]

theorem conf_bounds {buf : List Char} {L : List (List Char)} {k : Nat}
    (h : Conf buf L k) :
    (L = [] → k = 0) ∧ ∀ l M, L = l :: M → k ≤ l.length := by
  cases L with
  | nil =>
    obtain ⟨_, hk⟩ := h
    exact ⟨fun _ => hk, (fun l M hlm => nomatch hlm)⟩
  | cons l M =>
    refine ⟨(fun hh => nomatch hh), fun l2 M2 hlm => ?_⟩
    rw [List.cons.injEq] at hlm
    obtain ⟨rfl, rfl⟩ := hlm
    rcases h with ⟨_, rfl⟩ | ⟨_, _, hk, _⟩ | ⟨_, _, hk, _⟩
    · omega
    · omega
    · omega

theorem advance_decomp : ∀ (L : List (List Char)) (k n : Nat)
    (L2 : List (List Char)) (k2 : Nat),
    (L = [] → k = 0) → (∀ l M, L = l :: M → k ≤ l.length) →
    advance L k n = some (L2, k2) →
    ∃ u : List Char, u.length = n ∧ remText L k = u ++ remText L2 k2 := by
  intro L
  induction L with
  | nil =>
    intro k n L2 k2 hnil _ hadv
    cases n with
    | zero =>
      simp only [advance] at hadv
      rw [Option.some.injEq, Prod.mk.injEq] at hadv
      obtain ⟨rfl, rfl⟩ := hadv
      exact ⟨[], rfl, rfl⟩
    | succ m => simp [advance] at hadv
  | cons l M ih =>
    intro k n L2 k2 _ hbound hadv
    have hk : k ≤ l.length := hbound l M rfl
    cases n with
    | zero =>
      simp only [advance] at hadv
      rw [Option.some.injEq, Prod.mk.injEq] at hadv
      obtain ⟨rfl, rfl⟩ := hadv
      exact ⟨[], rfl, rfl⟩
    | succ m =>
      rw [show advance (l :: M) k (m + 1) =
        (if k + (m + 1) ≤ l.length then some (l :: M, k + (m + 1))
         else advance M 0 ((m + 1) - (l.length - k) - 1)) from rfl] at hadv
      by_cases hin : k + (m + 1) ≤ l.length
      · rw [if_pos hin, Option.some.injEq, Prod.mk.injEq] at hadv
        obtain ⟨rfl, rfl⟩ := hadv
        refine ⟨(l.drop k).take (m + 1), ?_, ?_⟩
        · rw [List.length_take, List.length_drop]
          omega
        · show l.drop k ++ '\n' :: linesText M =
            (l.drop k).take (m + 1) ++ (l.drop (k + (m + 1)) ++ '\n' :: linesText M)
          rw [show l.drop (k + (m + 1)) = (l.drop k).drop (m + 1) from
            (List.drop_drop _ _ _).symm]
          rw [← List.append_assoc, List.take_append_drop]
      · rw [if_neg hin] at hadv
        obtain ⟨u, hu1, hu2⟩ := ih 0 ((m + 1) - (l.length - k) - 1) L2 k2
          (fun hh => rfl) (fun l2 M2 _ => Nat.zero_le _) hadv
        refine ⟨l.drop k ++ '\n' :: u, ?_, ?_⟩
        · rw [List.length_append, List.length_cons, List.length_drop, hu1]
          omega
        · rw [remText_zero] at hu2
          show l.drop k ++ '\n' :: linesText M =
            (l.drop k ++ '\n' :: u) ++ remText L2 k2
          rw [hu2]
          simp [List.append_assoc]

theorem advance_suffix : ∀ (L : List (List Char)) (k n : Nat)
    (L2 : List (List Char)) (k2 : Nat),
    advance L k n = some (L2, k2) → L2.Sublist L := by
  intro L
  induction L with
  | nil =>
    intro k n L2 k2 hadv
    cases n with
    | zero =>
      simp only [advance] at hadv
      rw [Option.some.injEq, Prod.mk.injEq] at hadv
      rw [← hadv.1]
    | succ m => simp [advance] at hadv
  | cons l M ih =>
    intro k n L2 k2 hadv
    cases n with
    | zero =>
      simp only [advance] at hadv
      rw [Option.some.injEq, Prod.mk.injEq] at hadv
      rw [← hadv.1]
    | succ m =>
      rw [show advance (l :: M) k (m + 1) =
        (if k + (m + 1) ≤ l.length then some (l :: M, k + (m + 1))
         else advance M 0 ((m + 1) - (l.length - k) - 1)) from rfl] at hadv
      by_cases hin : k + (m + 1) ≤ l.length
      · rw [if_pos hin, Option.some.injEq, Prod.mk.injEq] at hadv
        rw [← hadv.1]
      · rw [if_neg hin] at hadv
        exact (ih 0 _ L2 k2 hadv).cons l

theorem processLines_combined_eq {b1 x1 b2 x2 : List Char}
    (ls : List (List Char)) (h : b1 ++ x1 = b2 ++ x2) :
    processLines b1 (x1 :: ls) = processLines b2 (x2 :: ls) := by
  rw [processLines_cons, processLines_cons, h]

theorem processLines_data_full {l buf x : List Char} {r : StreamResp}
    (ls : List (List Char)) (hd : DataLine l) (hbx : buf ++ x = l)
    (hr : parseStreamResp (l.drop 6) = some r) :
    processLines buf (x :: ls) =
      if r.type = "message_stop" then ([], [r])
      else ((processLines [] ls).1, r :: (processLines [] ls).2) := by
  rw [processLines_cons, hbx, if_pos hd.1, hr]

theorem processLines_data_partial {l buf x : List Char} {j : Nat}
    (ls : List (List Char)) (hd : DataLine l) (h6 : 6 ≤ j) (hj : j < l.length)
    (hbx : buf ++ x = l.take j) :
    processLines buf (x :: ls) = processLines (l.take j) ls := by
  rw [processLines_cons, hbx, if_pos (dataHeader_take hd.1 h6), hd.2.2 j h6 hj]

theorem processLines_dropped {buf x : List Char}
    (ls : List (List Char)) (h : ¬ dataHeader.isPrefixOf (buf ++ x)) :
    processLines buf (x :: ls) = processLines [] ls := by
  rw [processLines_cons, if_neg h]

theorem lineGood_drop {l : List Char} (h : LineGood l) (k : Nat) :
    '\n' ∉ l.drop k ∧ '\r' ∉ l.drop k :=
  ⟨fun hm => h.1 (List.mem_of_mem_drop hm),
   fun hm => h.2 (List.mem_of_mem_drop hm)⟩

theorem nonData_take {l : List Char} (h : NonDataLine l) (k n : Nat) :
    ¬ dataHeader.isPrefixOf ((l.drop k).take n) := fun hp =>
  h k (dataHeader_of_take hp)

theorem processText_dead {L2 : List (List Char)} (k2 : Nat)
    (h : ∀ x ∈ L2, LineGood x ∧ NonDataLine x) :
    processLines [] (rustLines (remText L2 k2)) = ([], []) := by
  cases L2 with
  | nil => rfl
  | cons l2 M =>
    obtain ⟨hg, hn⟩ := h l2 (by simp)
    show processLines [] (rustLines (l2.drop k2 ++ '\n' :: linesText M)) = ([], [])
    rw [rustLines_append _ (lineGood_drop hg k2).1 (lineGood_drop hg k2).2]
    rw [rustLines_linesText (fun x hx => (h x (by simp [hx])).1)]
    apply processLines_dead
    intro x hx
    rcases List.mem_cons.mp hx with rfl | hx2
    · exact hn k2
    · have := (h x (by simp [hx2])).2 0
      rw [List.drop_zero] at this
      exact this

theorem dataHeader_nil : ¬ dataHeader.isPrefixOf ([] : List Char) = true := by
  decide

theorem not_data_drop_length {l : List Char} {k : Nat} (h : l.length ≤ k) :
    ¬ dataHeader.isPrefixOf (l.drop k) = true := by
  rw [List.drop_eq_nil_of_le h]
  exact dataHeader_nil

theorem processText_dead2 {l2 : List Char} {M : List (List Char)} {k2 : Nat}
    (hg : LineGood l2) (hh : ¬ dataHeader.isPrefixOf (l2.drop k2) = true)
    (h : ∀ x ∈ M, LineGood x ∧ NonDataLine x) :
    processLines [] (rustLines (remText (l2 :: M) k2)) = ([], []) := by
  show processLines [] (rustLines (l2.drop k2 ++ '\n' :: linesText M)) = ([], [])
  rw [rustLines_append _ (lineGood_drop hg k2).1 (lineGood_drop hg k2).2]
  rw [rustLines_linesText (fun x hx => (h x hx).1)]
  apply processLines_dead
  intro x hx
  rcases List.mem_cons.mp hx with rfl | hx2
  · exact hh
  · have := (h x hx2).2 0
    rw [List.drop_zero] at this
    exact this

theorem conf_dead {L2 : List (List Char)} {k2 : Nat}
    (hcut : cutOkAt L2 k2 = true)
    (h : ∀ x ∈ L2, LineGood x ∧ NonDataLine x) : Conf [] L2 k2 := by
  cases L2 with
  | nil =>
    simp only [cutOkAt, beq_iff_eq] at hcut
    exact ⟨rfl, hcut⟩
  | cons l2 M2 =>
    simp only [cutOkAt, Bool.or_eq_true, Bool.and_eq_true, beq_iff_eq,
      decide_eq_true_eq] at hcut
    rcases hcut with (rfl | hlen) | ⟨⟨hpos, hlt⟩, _⟩
    · exact Or.inl ⟨rfl, rfl⟩
    · by_cases h0 : l2.length = 0
      · exact Or.inl ⟨rfl, by omega⟩
      · exact Or.inr (Or.inr ⟨rfl, by omega, by omega, Or.inr hlen⟩)
    · exact Or.inr (Or.inr ⟨rfl, by omega, by omega, Or.inl (h l2 (by simp)).2⟩)

theorem lineGood_of_valid {l : List Char} {M : List (List Char)}
    (hv : ValidStream (l :: M)) : LineGood l := by
  cases hv with
  | data hg _ _ _ => exact hg
  | stop hg _ _ _ => exact hg
  | nond hg _ _ => exact hg

theorem validStream_tail {l : List Char} {M : List (List Char)}
    (hv : ValidStream (l :: M)) : ValidStream M := by
  cases hv with
  | data _ _ _ hM => exact hM
  | stop _ _ _ hM => exact validStream_of_tail hM
  | nond _ _ hM => exact hM


theorem chunkStep : ∀ (L : List (List Char)) (k : Nat) (buf c : List Char)
    (L2 : List (List Char)) (k2 : Nat),
    ValidStream L → Conf buf L k →
    advance L k c.length = some (L2, k2) → cutOkAt L2 k2 = true →
    c ++ remText L2 k2 = remText L k →
    ValidStream L2 ∧ Conf (processChunk buf c).1 L2 k2 ∧
    (processLines buf (rustLines (remText L k))).2 =
      (processChunk buf c).2 ++
        (processLines (processChunk buf c).1 (rustLines (remText L2 k2))).2 := by
  intro L
  induction L with
  | nil =>
    intro k buf c L2 k2 hv hconf hadv hcut heq
    obtain ⟨rfl, rfl⟩ := hconf
    obtain ⟨rfl, hrem2⟩ := List.append_eq_nil.mp heq
    have hsome : some (([] : List (List Char)), 0) = some (L2, k2) := by
      rw [← hadv]; rfl
    rw [Option.some.injEq, Prod.mk.injEq] at hsome
    obtain ⟨h1, h2⟩ := hsome
    subst h1
    subst h2
    exact ⟨ValidStream.nil, ⟨rfl, rfl⟩, rfl⟩
  | cons l M ih =>
    intro k buf c L2 k2 hv hconf hadv hcut heq
    have hkle : k ≤ l.length := (conf_bounds hconf).2 l M rfl
    have hlg : LineGood l := lineGood_of_valid hv
    have hrem : remText (l :: M) k = l.drop k ++ '\n' :: linesText M := rfl
    have hwl : rustLines (remText (l :: M) k) =
        l.drop k :: rustLines (linesText M) := by
      rw [hrem, rustLines_append _ (lineGood_drop hlg k).1 (lineGood_drop hlg k).2]
    cases c with
    | nil =>
      have hsome : some (l :: M, k) = some (L2, k2) := by rw [← hadv]; rfl
      rw [Option.some.injEq, Prod.mk.injEq] at hsome
      obtain ⟨h1, h2⟩ := hsome
      subst h1
      subst h2
      refine ⟨hv, hconf, ?_⟩
      have hch : processChunk buf [] = (buf, []) := rfl
      rw [hch]
      rfl
    | cons c0 crest =>
      have hcne : (c0 :: crest) ≠ [] := by simp
      simp only [List.length_cons] at hadv
      have hadveq : advance (l :: M) k (crest.length + 1) =
          (if k + (crest.length + 1) ≤ l.length
           then some (l :: M, k + (crest.length + 1))
           else advance M 0 ((crest.length + 1) - (l.length - k) - 1)) := rfl
      by_cases hin : k + (crest.length + 1) ≤ l.length
      · -- the chunk ends inside line l
        rw [hadveq, if_pos hin, Option.some.injEq, Prod.mk.injEq] at hadv
        obtain ⟨h1, h2⟩ := hadv
        subst h1
        subst h2
        have hlendrop : (l.drop k).length = l.length - k := List.length_drop _ _
        have hdd : l.drop (k + (crest.length + 1)) =
            (l.drop k).drop (crest.length + 1) := (List.drop_drop _ _ _).symm
        have hsplitl : (l.drop k).take (crest.length + 1) ++
            l.drop (k + (crest.length + 1)) = l.drop k := by
          rw [hdd, List.take_append_drop]
        have hceq : (c0 :: crest) = (l.drop k).take (crest.length + 1) := by
          have h2 : (c0 :: crest) ++ remText (l :: M) (k + (crest.length + 1)) =
              (l.drop k).take (crest.length + 1) ++
                remText (l :: M) (k + (crest.length + 1)) := by
            rw [heq]
            show l.drop k ++ '\n' :: linesText M =
              (l.drop k).take (crest.length + 1) ++
                (l.drop (k + (crest.length + 1)) ++ '\n' :: linesText M)
            rw [← List.append_assoc, hsplitl]
          refine (List.append_inj h2 ?_).1
          rw [List.length_take, List.length_cons, hlendrop]
          omega
        have hnlc : '\n' ∉ (c0 :: crest) := by
          rw [hceq]
          intro hm
          exact (lineGood_drop hlg k).1 (List.mem_of_mem_take hm)
        have hrlc : rustLines (c0 :: crest) = [c0 :: crest] :=
          rustLines_noNl hnlc hcne
        have hcut' : k + (crest.length + 1) = l.length ∨
            (k + (crest.length + 1) < l.length ∧
              (dataHeader.isPrefixOf l = true → 6 ≤ k + (crest.length + 1))) := by
          simp only [cutOkAt, Bool.or_eq_true, Bool.and_eq_true, beq_iff_eq,
            decide_eq_true_eq, Bool.not_eq_true'] at hcut
          rcases hcut with (h0 | hl) | ⟨⟨hpos, hlt⟩, himp⟩
          · omega
          · exact Or.inl hl
          · refine Or.inr ⟨hlt, fun hd => ?_⟩
            rcases himp with hf | h6
            · rw [hd] at hf; cases hf
            · exact h6
        rcases hconf with ⟨rfl, rfl⟩ | ⟨hpl, h6, hklen, rfl⟩ | ⟨rfl, hk0, hklen, hor⟩
        · -- at a line boundary with empty buffer
          have hceq0 : c0 :: crest = l.take (crest.length + 1) := by
            rw [hceq, List.drop_zero]
          rcases hcut' with hfull | ⟨hlt, himp⟩
          · -- the chunk ends exactly at the end of the line (no newline yet)
            have hcl : (c0 :: crest) = l := by
              rw [hceq0]
              have hl1 : crest.length + 1 = l.length := by omega
              rw [hl1, List.take_length]
            cases hv with
            | data hg hd hns hvM =>
              obtain ⟨r, hr⟩ := Option.isSome_iff_exists.mp hd.2.1
              have hch' : processChunk [] (c0 :: crest) = ([], [r]) := by
                show processLines [] (rustLines (c0 :: crest)) = ([], [r])
                rw [hrlc]
                have hstep : processLines []
                    ((c0 :: crest) :: ([] : List (List Char))) =
                    if r.type = "message_stop" then ([], [r])
                    else ((processLines [] ([] : List (List Char))).1,
                      r :: (processLines [] ([] : List (List Char))).2) :=
                  processLines_data_full ([] : List (List Char)) hd
                    (by rw [List.nil_append]; exact hcl) hr
                rw [hstep, if_neg (hns r hr)]
                rfl
              refine ⟨ValidStream.data hg hd hns hvM, ?_, ?_⟩
              · rw [hch']
                refine Or.inr (Or.inr ⟨rfl, ?_, by omega, Or.inr hfull⟩)
                omega
              · rw [hch']
                simp only [Prod.fst, Prod.snd]
                have hwstep : processLines []
                    (l.drop 0 :: rustLines (linesText M)) =
                    if r.type = "message_stop" then ([], [r])
                    else ((processLines [] (rustLines (linesText M))).1,
                      r :: (processLines [] (rustLines (linesText M))).2) :=
                  processLines_data_full (rustLines (linesText M)) hd
                    (by rw [List.nil_append, List.drop_zero]) hr
                rw [hwl, hwstep, if_neg (hns r hr)]
                have hdnil : l.drop (0 + (crest.length + 1)) = [] :=
                  List.drop_eq_nil_of_le (by omega)
                have hrem2 : remText (l :: M) (0 + (crest.length + 1)) =
                    '\n' :: linesText M := by
                  show l.drop (0 + (crest.length + 1)) ++ '\n' :: linesText M =
                    '\n' :: linesText M
                  rw [hdnil, List.nil_append]
                rw [hrem2]
                have hlines : rustLines ('\n' :: linesText M) =
                    [] :: rustLines (linesText M) := by
                  have hls := rustLines_append (x := ([] : List Char))
                    (linesText M) (by simp) (by simp)
                  rw [List.nil_append] at hls
                  exact hls
                rw [hlines]
                have hdrop0 : processLines []
                    (([] : List Char) :: rustLines (linesText M)) =
                    processLines [] (rustLines (linesText M)) :=
                  processLines_dropped (rustLines (linesText M))
                    (by rw [List.nil_append]; exact dataHeader_nil)
                rw [hdrop0]
                rfl
            | stop hg hd hstop hM =>
              obtain ⟨r, hr, hrs⟩ := hstop
              have hch' : processChunk [] (c0 :: crest) = ([], [r]) := by
                show processLines [] (rustLines (c0 :: crest)) = ([], [r])
                rw [hrlc]
                have hstep : processLines []
                    ((c0 :: crest) :: ([] : List (List Char))) =
                    if r.type = "message_stop" then ([], [r])
                    else ((processLines [] ([] : List (List Char))).1,
                      r :: (processLines [] ([] : List (List Char))).2) :=
                  processLines_data_full ([] : List (List Char)) hd
                    (by rw [List.nil_append]; exact hcl) hr
                rw [hstep, if_pos hrs]
              refine ⟨ValidStream.stop hg hd ⟨r, hr, hrs⟩ hM, ?_, ?_⟩
              · rw [hch']
                refine Or.inr (Or.inr ⟨rfl, ?_, by omega, Or.inr hfull⟩)
                omega
              · rw [hch']
                simp only [Prod.fst, Prod.snd]
                have hwstep : processLines []
                    (l.drop 0 :: rustLines (linesText M)) =
                    if r.type = "message_stop" then ([], [r])
                    else ((processLines [] (rustLines (linesText M))).1,
                      r :: (processLines [] (rustLines (linesText M))).2) :=
                  processLines_data_full (rustLines (linesText M)) hd
                    (by rw [List.nil_append, List.drop_zero]) hr
                rw [hwl, hwstep, if_pos hrs]
                have hdnil : l.drop (0 + (crest.length + 1)) = [] :=
                  List.drop_eq_nil_of_le (by omega)
                have hrem2 : remText (l :: M) (0 + (crest.length + 1)) =
                    '\n' :: linesText M := by
                  show l.drop (0 + (crest.length + 1)) ++ '\n' :: linesText M =
                    '\n' :: linesText M
                  rw [hdnil, List.nil_append]
                rw [hrem2]
                have hdead : processLines [] (rustLines ('\n' :: linesText M)) =
                    ([], []) := by
                  show processLines []
                    (rustLines (remText (([] : List Char) :: M) 0)) = ([], [])
                  exact processText_dead2 ⟨by simp, by simp⟩
                    (by rw [List.drop_nil]; exact dataHeader_nil) hM
                rw [hdead]
                rfl
            | nond hg hn hvM =>
              have hch' : processChunk [] (c0 :: crest) = ([], []) := by
                show processLines [] (rustLines (c0 :: crest)) = ([], [])
                rw [hrlc]
                have hstep : processLines []
                    ((c0 :: crest) :: ([] : List (List Char))) =
                    processLines [] ([] : List (List Char)) :=
                  processLines_dropped ([] : List (List Char))
                    (by rw [List.nil_append, hcl]; exact hn 0)
                rw [hstep]
                rfl
              refine ⟨ValidStream.nond hg hn hvM, ?_, ?_⟩
              · rw [hch']
                exact Or.inr (Or.inr ⟨rfl, by omega, by omega, Or.inl hn⟩)
              · rw [hch']
                simp only [Prod.fst, Prod.snd]
                have hwdrop : processLines []
                    (l.drop 0 :: rustLines (linesText M)) =
                    processLines [] (rustLines (linesText M)) :=
                  processLines_dropped (rustLines (linesText M))
                    (by rw [List.nil_append]; exact hn 0)
                rw [hwl, hwdrop]
                have hrem2 : remText (l :: M) (0 + (crest.length + 1)) =
                    l.drop (0 + (crest.length + 1)) ++ '\n' :: linesText M := rfl
                rw [hrem2]
                rw [rustLines_append _ (lineGood_drop hlg _).1 (lineGood_drop hlg _).2]
                have hrdrop : processLines []
                    (l.drop (0 + (crest.length + 1)) :: rustLines (linesText M)) =
                    processLines [] (rustLines (linesText M)) :=
                  processLines_dropped (rustLines (linesText M))
                    (by rw [List.nil_append]; exact hn _)
                rw [hrdrop]
                rfl
          · -- the chunk ends strictly inside the line
            by_cases hdata : dataHeader.isPrefixOf l = true
            · -- buffered partial data line
              have h6 : 6 ≤ crest.length + 1 := by
                have h6p := himp hdata
                omega
              have hd : DataLine l := by
                cases hv with
                | data _ hd _ _ => exact hd
                | stop _ hd _ _ => exact hd
                | nond _ hn _ => exact absurd hdata (hn 0)
              have hch' : processChunk [] (c0 :: crest) =
                  (l.take (crest.length + 1), []) := by
                show processLines [] (rustLines (c0 :: crest)) =
                  (l.take (crest.length + 1), [])
                rw [hrlc]
                have hstep : processLines []
                    ((c0 :: crest) :: ([] : List (List Char))) =
                    processLines (l.take (crest.length + 1))
                      ([] : List (List Char)) :=
                  processLines_data_partial ([] : List (List Char)) hd
                    (by omega) (by omega)
                    (by rw [List.nil_append]; exact hceq0)
                rw [hstep]
                rfl
              refine ⟨hv, ?_, ?_⟩
              · rw [hch', Nat.zero_add]
                exact Or.inr (Or.inl ⟨hdata, by omega, by omega, rfl⟩)
              · rw [hch']
                simp only [Prod.fst, Prod.snd]
                rw [hwl]
                have hrem2 : remText (l :: M) (0 + (crest.length + 1)) =
                    l.drop (0 + (crest.length + 1)) ++ '\n' :: linesText M := rfl
                rw [hrem2]
                rw [rustLines_append _ (lineGood_drop hlg _).1 (lineGood_drop hlg _).2]
                have hcmb : processLines []
                    (l.drop 0 :: rustLines (linesText M)) =
                    processLines (l.take (crest.length + 1))
                      (l.drop (0 + (crest.length + 1)) :: rustLines (linesText M)) :=
                  processLines_combined_eq (rustLines (linesText M)) (by
                    rw [List.nil_append, List.drop_zero, Nat.zero_add,
                      List.take_append_drop])
                rw [hcmb]
                rfl
            · -- fragment of a non-data line: dropped
              have hnd : ¬ dataHeader.isPrefixOf (l.take (crest.length + 1)) = true :=
                fun hp => hdata (dataHeader_of_take hp)
              have hn : NonDataLine l := by
                cases hv with
                | data _ hd _ _ => exact absurd hd.1 hdata
                | stop _ hd _ _ => exact absurd hd.1 hdata
                | nond _ hn _ => exact hn
              have hch' : processChunk [] (c0 :: crest) = ([], []) := by
                show processLines [] (rustLines (c0 :: crest)) = ([], [])
                rw [hrlc]
                have hstep : processLines []
                    ((c0 :: crest) :: ([] : List (List Char))) =
                    processLines [] ([] : List (List Char)) :=
                  processLines_dropped ([] : List (List Char))
                    (by rw [List.nil_append, hceq0]; exact hnd)
                rw [hstep]
                rfl
              refine ⟨hv, ?_, ?_⟩
              · rw [hch']
                exact Or.inr (Or.inr ⟨rfl, by omega, by omega, Or.inl hn⟩)
              · rw [hch']
                simp only [Prod.fst, Prod.snd]
                have hwdrop : processLines []
                    (l.drop 0 :: rustLines (linesText M)) =
                    processLines [] (rustLines (linesText M)) :=
                  processLines_dropped (rustLines (linesText M))
                    (by rw [List.nil_append]; exact hn 0)
                rw [hwl, hwdrop]
                have hrem2 : remText (l :: M) (0 + (crest.length + 1)) =
                    l.drop (0 + (crest.length + 1)) ++ '\n' :: linesText M := rfl
                rw [hrem2]
                rw [rustLines_append _ (lineGood_drop hlg _).1 (lineGood_drop hlg _).2]
                have hrdrop : processLines []
                    (l.drop (0 + (crest.length + 1)) :: rustLines (linesText M)) =
                    processLines [] (rustLines (linesText M)) :=
                  processLines_dropped (rustLines (linesText M))
                    (by rw [List.nil_append]; exact hn _)
                rw [hrdrop]
                rfl
        · -- a buffered data-line prefix
          have hd : DataLine l := by
            cases hv with
            | data _ hd _ _ => exact hd
            | stop _ hd _ _ => exact hd
            | nond _ hn _ => exact absurd hpl (hn 0)
          have hcomb : l.take k ++ (c0 :: crest) = l.take (k + (crest.length + 1)) := by
            conv_rhs => rw [List.take_add]
            rw [← hceq]
          rcases hcut' with hfull | ⟨hlt, _⟩
          · -- the buffered line completes exactly at chunk end
            have hcombl : l.take k ++ (c0 :: crest) = l := by
              rw [hcomb, hfull, List.take_length]
            cases hv with
            | data hg hd2 hns hvM =>
              obtain ⟨r, hr⟩ := Option.isSome_iff_exists.mp hd2.2.1
              have hch' : processChunk (l.take k) (c0 :: crest) = ([], [r]) := by
                show processLines (l.take k) (rustLines (c0 :: crest)) = ([], [r])
                rw [hrlc]
                have hstep : processLines (l.take k)
                    ((c0 :: crest) :: ([] : List (List Char))) =
                    if r.type = "message_stop" then ([], [r])
                    else ((processLines [] ([] : List (List Char))).1,
                      r :: (processLines [] ([] : List (List Char))).2) :=
                  processLines_data_full ([] : List (List Char)) hd2 hcombl hr
                rw [hstep, if_neg (hns r hr)]
                rfl
              refine ⟨ValidStream.data hg hd2 hns hvM, ?_, ?_⟩
              · rw [hch']
                refine Or.inr (Or.inr ⟨rfl, by omega, by omega, Or.inr hfull⟩)
              · rw [hch']
                simp only [Prod.fst, Prod.snd]
                have hwstep : processLines (l.take k)
                    (l.drop k :: rustLines (linesText M)) =
                    if r.type = "message_stop" then ([], [r])
                    else ((processLines [] (rustLines (linesText M))).1,
                      r :: (processLines [] (rustLines (linesText M))).2) :=
                  processLines_data_full (rustLines (linesText M)) hd2
                    (List.take_append_drop _ _) hr
                rw [hwl, hwstep, if_neg (hns r hr)]
                have hdnil : l.drop (k + (crest.length + 1)) = [] :=
                  List.drop_eq_nil_of_le (by omega)
                have hrem2 : remText (l :: M) (k + (crest.length + 1)) =
                    '\n' :: linesText M := by
                  show l.drop (k + (crest.length + 1)) ++ '\n' :: linesText M =
                    '\n' :: linesText M
                  rw [hdnil, List.nil_append]
                rw [hrem2]
                have hlines : rustLines ('\n' :: linesText M) =
                    [] :: rustLines (linesText M) := by
                  have hls := rustLines_append (x := ([] : List Char))
                    (linesText M) (by simp) (by simp)
                  rw [List.nil_append] at hls
                  exact hls
                rw [hlines]
                have hdrop0 : processLines []
                    (([] : List Char) :: rustLines (linesText M)) =
                    processLines [] (rustLines (linesText M)) :=
                  processLines_dropped (rustLines (linesText M))
                    (by rw [List.nil_append]; exact dataHeader_nil)
                rw [hdrop0]
                rfl
            | stop hg hd2 hstop hM =>
              obtain ⟨r, hr, hrs⟩ := hstop
              have hch' : processChunk (l.take k) (c0 :: crest) = ([], [r]) := by
                show processLines (l.take k) (rustLines (c0 :: crest)) = ([], [r])
                rw [hrlc]
                have hstep : processLines (l.take k)
                    ((c0 :: crest) :: ([] : List (List Char))) =
                    if r.type = "message_stop" then ([], [r])
                    else ((processLines [] ([] : List (List Char))).1,
                      r :: (processLines [] ([] : List (List Char))).2) :=
                  processLines_data_full ([] : List (List Char)) hd2 hcombl hr
                rw [hstep, if_pos hrs]
              refine ⟨ValidStream.stop hg hd2 ⟨r, hr, hrs⟩ hM, ?_, ?_⟩
              · rw [hch']
                refine Or.inr (Or.inr ⟨rfl, by omega, by omega, Or.inr hfull⟩)
              · rw [hch']
                simp only [Prod.fst, Prod.snd]
                have hwstep : processLines (l.take k)
                    (l.drop k :: rustLines (linesText M)) =
                    if r.type = "message_stop" then ([], [r])
                    else ((processLines [] (rustLines (linesText M))).1,
                      r :: (processLines [] (rustLines (linesText M))).2) :=
                  processLines_data_full (rustLines (linesText M)) hd2
                    (List.take_append_drop _ _) hr
                rw [hwl, hwstep, if_pos hrs]
                have hdnil : l.drop (k + (crest.length + 1)) = [] :=
                  List.drop_eq_nil_of_le (by omega)
                have hrem2 : remText (l :: M) (k + (crest.length + 1)) =
                    '\n' :: linesText M := by
                  show l.drop (k + (crest.length + 1)) ++ '\n' :: linesText M =
                    '\n' :: linesText M
                  rw [hdnil, List.nil_append]
                rw [hrem2]
                have hdead : processLines [] (rustLines ('\n' :: linesText M)) =
                    ([], []) := by
                  show processLines []
                    (rustLines (remText (([] : List Char) :: M) 0)) = ([], [])
                  exact processText_dead2 ⟨by simp, by simp⟩
                    (by rw [List.drop_nil]; exact dataHeader_nil) hM
                rw [hdead]
                rfl
            | nond _ hn _ => exact absurd hpl (hn 0)
          · -- the buffered line grows but stays incomplete
            have hch' : processChunk (l.take k) (c0 :: crest) =
                (l.take (k + (crest.length + 1)), []) := by
              show processLines (l.take k) (rustLines (c0 :: crest)) =
                (l.take (k + (crest.length + 1)), [])
              rw [hrlc]
              have hstep : processLines (l.take k)
                  ((c0 :: crest) :: ([] : List (List Char))) =
                  processLines (l.take (k + (crest.length + 1)))
                    ([] : List (List Char)) :=
                processLines_data_partial ([] : List (List Char)) hd
                  (by omega) (by omega) hcomb
              rw [hstep]
              rfl
            refine ⟨hv, ?_, ?_⟩
            · rw [hch']
              exact Or.inr (Or.inl ⟨hpl, by omega, by omega, rfl⟩)
            · rw [hch']
              simp only [Prod.fst, Prod.snd]
              rw [hwl]
              have hrem2 : remText (l :: M) (k + (crest.length + 1)) =
                  l.drop (k + (crest.length + 1)) ++ '\n' :: linesText M := rfl
              rw [hrem2]
              rw [rustLines_append _ (lineGood_drop hlg _).1 (lineGood_drop hlg _).2]
              have hcmb : processLines (l.take k)
                  (l.drop k :: rustLines (linesText M)) =
                  processLines (l.take (k + (crest.length + 1)))
                    (l.drop (k + (crest.length + 1)) :: rustLines (linesText M)) :=
                processLines_combined_eq (rustLines (linesText M)) (by
                  rw [List.take_append_drop, List.take_append_drop])
              rw [hcmb]
              rfl
        · -- inside a line whose fragments are dropped
          have hn : NonDataLine l := by
            rcases hor with hn | hkl
            · exact hn
            · exact absurd hin (by omega)
          have hnd : ¬ dataHeader.isPrefixOf (c0 :: crest) = true := by
            rw [hceq]
            exact nonData_take hn k (crest.length + 1)
          have hch' : processChunk [] (c0 :: crest) = ([], []) := by
            show processLines [] (rustLines (c0 :: crest)) = ([], [])
            rw [hrlc]
            have hstep : processLines []
                ((c0 :: crest) :: ([] : List (List Char))) =
                processLines [] ([] : List (List Char)) :=
              processLines_dropped ([] : List (List Char))
                (by rw [List.nil_append]; exact hnd)
            rw [hstep]
            rfl
          refine ⟨hv, ?_, ?_⟩
          · rw [hch']
            exact Or.inr (Or.inr ⟨rfl, by omega, by omega, Or.inl hn⟩)
          · rw [hch']
            simp only [Prod.fst, Prod.snd]
            have hwdrop : processLines []
                (l.drop k :: rustLines (linesText M)) =
                processLines [] (rustLines (linesText M)) :=
              processLines_dropped (rustLines (linesText M))
                (by rw [List.nil_append]; exact hn k)
            rw [hwl, hwdrop]
            have hrem2 : remText (l :: M) (k + (crest.length + 1)) =
                l.drop (k + (crest.length + 1)) ++ '\n' :: linesText M := rfl
            rw [hrem2]
            rw [rustLines_append _ (lineGood_drop hlg _).1 (lineGood_drop hlg _).2]
            have hrdrop : processLines []
                (l.drop (k + (crest.length + 1)) :: rustLines (linesText M)) =
                processLines [] (rustLines (linesText M)) :=
              processLines_dropped (rustLines (linesText M))
                (by rw [List.nil_append]; exact hn _)
            rw [hrdrop]
            rfl
      · -- the chunk crosses the end of line l
        rw [hadveq, if_neg hin] at hadv
        have hlendrop : (l.drop k).length = l.length - k := List.length_drop _ _
        have hsplit : (c0 :: crest).take (l.length - k + 1) = l.drop k ++ ['\n'] ∧
            (c0 :: crest).drop (l.length - k + 1) ++ remText L2 k2 = linesText M := by
          have hx : ((c0 :: crest).take (l.length - k + 1) ++
              ((c0 :: crest).drop (l.length - k + 1) ++ remText L2 k2)) =
              (l.drop k ++ ['\n']) ++ linesText M := by
            rw [← List.append_assoc, List.take_append_drop, heq, hrem]
            simp [List.append_assoc]
          have hlen : ((c0 :: crest).take (l.length - k + 1)).length =
              (l.drop k ++ ['\n']).length := by
            simp only [List.length_take, List.length_append, List.length_cons,
              List.length_nil, hlendrop]
            omega
          exact List.append_inj hx hlen
        have hc2def : (c0 :: crest) =
            (l.drop k ++ ['\n']) ++ (c0 :: crest).drop (l.length - k + 1) := by
          rw [← hsplit.1, List.take_append_drop]
        have hrlc2 : rustLines (c0 :: crest) =
            l.drop k :: rustLines ((c0 :: crest).drop (l.length - k + 1)) := by
          conv_lhs => rw [hc2def]
          rw [show (l.drop k ++ ['\n']) ++ (c0 :: crest).drop (l.length - k + 1) =
            l.drop k ++ '\n' :: (c0 :: crest).drop (l.length - k + 1) by simp]
          exact rustLines_append _ (lineGood_drop hlg k).1 (lineGood_drop hlg k).2
        have hadv2 : advance M 0 ((c0 :: crest).drop (l.length - k + 1)).length =
            some (L2, k2) := by
          rw [List.length_drop, List.length_cons]
          rw [show crest.length + 1 - (l.length - k + 1) =
            crest.length + 1 - (l.length - k) - 1 by omega]
          exact hadv
        have hrem2eq : (c0 :: crest).drop (l.length - k + 1) ++ remText L2 k2 =
            remText M 0 := by
          rw [remText_zero]
          exact hsplit.2
        rcases hconf with ⟨rfl, rfl⟩ | ⟨hpl, h6, hklen, rfl⟩ | ⟨rfl, hk0, hklen, hor⟩
        · -- at a line boundary: the chunk contains the whole line l
          cases hv with
          | data hg hd hns hvM =>
            obtain ⟨r, hr⟩ := Option.isSome_iff_exists.mp hd.2.1
            obtain ⟨hv2, hconf2, heq2⟩ := ih 0 []
              ((c0 :: crest).drop (l.length - 0 + 1)) L2 k2 hvM
              (by cases M with
                | nil => exact ⟨rfl, rfl⟩
                | cons m ms => exact Or.inl ⟨rfl, rfl⟩)
              hadv2 hcut hrem2eq
            have hch' : processChunk [] (c0 :: crest) =
                ((processChunk [] ((c0 :: crest).drop (l.length - 0 + 1))).1,
                  r :: (processChunk []
                    ((c0 :: crest).drop (l.length - 0 + 1))).2) := by
              show processLines [] (rustLines (c0 :: crest)) = _
              rw [hrlc2]
              have hstep : processLines [] (l.drop 0 ::
                  rustLines ((c0 :: crest).drop (l.length - 0 + 1))) =
                  if r.type = "message_stop" then ([], [r])
                  else ((processLines []
                      (rustLines ((c0 :: crest).drop (l.length - 0 + 1)))).1,
                    r :: (processLines []
                      (rustLines ((c0 :: crest).drop (l.length - 0 + 1)))).2) :=
                processLines_data_full
                  (rustLines ((c0 :: crest).drop (l.length - 0 + 1))) hd
                  (by rw [List.nil_append, List.drop_zero]) hr
              rw [hstep, if_neg (hns r hr)]
              rfl
            refine ⟨hv2, ?_, ?_⟩
            · rw [hch']
              exact hconf2
            · rw [hch']
              have hwstep : processLines []
                  (l.drop 0 :: rustLines (linesText M)) =
                  if r.type = "message_stop" then ([], [r])
                  else ((processLines [] (rustLines (linesText M))).1,
                    r :: (processLines [] (rustLines (linesText M))).2) :=
                processLines_data_full (rustLines (linesText M)) hd
                  (by rw [List.nil_append, List.drop_zero]) hr
              rw [hwl, hwstep, if_neg (hns r hr)]
              rw [remText_zero] at heq2
              simp only [Prod.fst, Prod.snd, List.cons_append]
              rw [heq2]
          | stop hg hd hstop hM =>
            obtain ⟨r, hr, hrs⟩ := hstop
            have hch' : processChunk [] (c0 :: crest) = ([], [r]) := by
              show processLines [] (rustLines (c0 :: crest)) = ([], [r])
              rw [hrlc2]
              have hstep : processLines [] (l.drop 0 ::
                  rustLines ((c0 :: crest).drop (l.length - 0 + 1))) =
                  if r.type = "message_stop" then ([], [r])
                  else ((processLines []
                      (rustLines ((c0 :: crest).drop (l.length - 0 + 1)))).1,
                    r :: (processLines []
                      (rustLines ((c0 :: crest).drop (l.length - 0 + 1)))).2) :=
                processLines_data_full
                  (rustLines ((c0 :: crest).drop (l.length - 0 + 1))) hd
                  (by rw [List.nil_append, List.drop_zero]) hr
              rw [hstep, if_pos hrs]
            have hsub : L2.Sublist M :=
              advance_suffix M 0
                ((c0 :: crest).drop (l.length - 0 + 1)).length L2 k2 hadv2
            have hL2nd : ∀ x ∈ L2, LineGood x ∧ NonDataLine x :=
              fun x hx => hM x (hsub.mem hx)
            refine ⟨validStream_of_tail hL2nd, ?_, ?_⟩
            · rw [hch']
              exact conf_dead hcut hL2nd
            · rw [hch']
              simp only [Prod.fst, Prod.snd]
              have hwstep : processLines []
                  (l.drop 0 :: rustLines (linesText M)) =
                  if r.type = "message_stop" then ([], [r])
                  else ((processLines [] (rustLines (linesText M))).1,
                    r :: (processLines [] (rustLines (linesText M))).2) :=
                processLines_data_full (rustLines (linesText M)) hd
                  (by rw [List.nil_append, List.drop_zero]) hr
              rw [hwl, hwstep, if_pos hrs]
              cases L2 with
              | nil => rfl
              | cons l2 M2 =>
                rw [processText_dead2 (hL2nd l2 (by simp)).1
                  ((hL2nd l2 (by simp)).2 k2)
                  (fun x hx => hL2nd x (by simp [hx]))]
                rfl
          | nond hg hn hvM =>
            obtain ⟨hv2, hconf2, heq2⟩ := ih 0 []
              ((c0 :: crest).drop (l.length - 0 + 1)) L2 k2 hvM
              (by cases M with
                | nil => exact ⟨rfl, rfl⟩
                | cons m ms => exact Or.inl ⟨rfl, rfl⟩)
              hadv2 hcut hrem2eq
            have hch' : processChunk [] (c0 :: crest) =
                processChunk [] ((c0 :: crest).drop (l.length - 0 + 1)) := by
              show processLines [] (rustLines (c0 :: crest)) = _
              rw [hrlc2]
              have hstep : processLines [] (l.drop 0 ::
                  rustLines ((c0 :: crest).drop (l.length - 0 + 1))) =
                  processLines []
                    (rustLines ((c0 :: crest).drop (l.length - 0 + 1))) :=
                processLines_dropped
                  (rustLines ((c0 :: crest).drop (l.length - 0 + 1)))
                  (by rw [List.nil_append]; exact hn 0)
              rw [hstep]
              rfl
            refine ⟨hv2, ?_, ?_⟩
            · rw [hch']
              exact hconf2
            · rw [hch']
              have hwdrop : processLines []
                  (l.drop 0 :: rustLines (linesText M)) =
                  processLines [] (rustLines (linesText M)) :=
                processLines_dropped (rustLines (linesText M))
                  (by rw [List.nil_append]; exact hn 0)
              rw [hwl, hwdrop]
              rw [remText_zero] at heq2
              exact heq2
        · -- a buffered data-line prefix completes inside the chunk
          cases hv with
          | data hg hd2 hns hvM =>
            obtain ⟨r, hr⟩ := Option.isSome_iff_exists.mp hd2.2.1
            obtain ⟨hv2, hconf2, heq2⟩ := ih 0 []
              ((c0 :: crest).drop (l.length - k + 1)) L2 k2 hvM
              (by cases M with
                | nil => exact ⟨rfl, rfl⟩
                | cons m ms => exact Or.inl ⟨rfl, rfl⟩)
              hadv2 hcut hrem2eq
            have hch' : processChunk (l.take k) (c0 :: crest) =
                ((processChunk [] ((c0 :: crest).drop (l.length - k + 1))).1,
                  r :: (processChunk []
                    ((c0 :: crest).drop (l.length - k + 1))).2) := by
              show processLines (l.take k) (rustLines (c0 :: crest)) = _
              rw [hrlc2]
              have hstep : processLines (l.take k) (l.drop k ::
                  rustLines ((c0 :: crest).drop (l.length - k + 1))) =
                  if r.type = "message_stop" then ([], [r])
                  else ((processLines []
                      (rustLines ((c0 :: crest).drop (l.length - k + 1)))).1,
                    r :: (processLines []
                      (rustLines ((c0 :: crest).drop (l.length - k + 1)))).2) :=
                processLines_data_full
                  (rustLines ((c0 :: crest).drop (l.length - k + 1))) hd2
                  (List.take_append_drop _ _) hr
              rw [hstep, if_neg (hns r hr)]
              rfl
            refine ⟨hv2, ?_, ?_⟩
            · rw [hch']
              exact hconf2
            · rw [hch']
              have hwstep : processLines (l.take k)
                  (l.drop k :: rustLines (linesText M)) =
                  if r.type = "message_stop" then ([], [r])
                  else ((processLines [] (rustLines (linesText M))).1,
                    r :: (processLines [] (rustLines (linesText M))).2) :=
                processLines_data_full (rustLines (linesText M)) hd2
                  (List.take_append_drop _ _) hr
              rw [hwl, hwstep, if_neg (hns r hr)]
              rw [remText_zero] at heq2
              simp only [Prod.fst, Prod.snd, List.cons_append]
              rw [heq2]
          | stop hg hd2 hstop hM =>
            obtain ⟨r, hr, hrs⟩ := hstop
            have hch' : processChunk (l.take k) (c0 :: crest) = ([], [r]) := by
              show processLines (l.take k) (rustLines (c0 :: crest)) = ([], [r])
              rw [hrlc2]
              have hstep : processLines (l.take k) (l.drop k ::
                  rustLines ((c0 :: crest).drop (l.length - k + 1))) =
                  if r.type = "message_stop" then ([], [r])
                  else ((processLines []
                      (rustLines ((c0 :: crest).drop (l.length - k + 1)))).1,
                    r :: (processLines []
                      (rustLines ((c0 :: crest).drop (l.length - k + 1)))).2) :=
                processLines_data_full
                  (rustLines ((c0 :: crest).drop (l.length - k + 1))) hd2
                  (List.take_append_drop _ _) hr
              rw [hstep, if_pos hrs]
            have hsub : L2.Sublist M :=
              advance_suffix M 0
                ((c0 :: crest).drop (l.length - k + 1)).length L2 k2 hadv2
            have hL2nd : ∀ x ∈ L2, LineGood x ∧ NonDataLine x :=
              fun x hx => hM x (hsub.mem hx)
            refine ⟨validStream_of_tail hL2nd, ?_, ?_⟩
            · rw [hch']
              exact conf_dead hcut hL2nd
            · rw [hch']
              simp only [Prod.fst, Prod.snd]
              have hwstep : processLines (l.take k)
                  (l.drop k :: rustLines (linesText M)) =
                  if r.type = "message_stop" then ([], [r])
                  else ((processLines [] (rustLines (linesText M))).1,
                    r :: (processLines [] (rustLines (linesText M))).2) :=
                processLines_data_full (rustLines (linesText M)) hd2
                  (List.take_append_drop _ _) hr
              rw [hwl, hwstep, if_pos hrs]
              cases L2 with
              | nil => rfl
              | cons l2 M2 =>
                rw [processText_dead2 (hL2nd l2 (by simp)).1
                  ((hL2nd l2 (by simp)).2 k2)
                  (fun x hx => hL2nd x (by simp [hx]))]
                rfl
          | nond _ hn _ => exact absurd hpl (hn 0)
        · -- the dropped-fragment line finishes inside the chunk
          have hvM : ValidStream M := validStream_tail hv
          obtain ⟨hv2, hconf2, heq2⟩ := ih 0 []
            ((c0 :: crest).drop (l.length - k + 1)) L2 k2 hvM
            (by cases M with
              | nil => exact ⟨rfl, rfl⟩
              | cons m ms => exact Or.inl ⟨rfl, rfl⟩)
            hadv2 hcut hrem2eq
          have hnfr : ¬ dataHeader.isPrefixOf (([] : List Char) ++ l.drop k) = true := by
            rw [List.nil_append]
            rcases hor with hn | hkl
            · exact hn k
            · exact not_data_drop_length (by omega)
          have hch' : processChunk [] (c0 :: crest) =
              processChunk [] ((c0 :: crest).drop (l.length - k + 1)) := by
            show processLines [] (rustLines (c0 :: crest)) = _
            rw [hrlc2]
            have hstep : processLines [] (l.drop k ::
                rustLines ((c0 :: crest).drop (l.length - k + 1))) =
                processLines []
                  (rustLines ((c0 :: crest).drop (l.length - k + 1))) :=
              processLines_dropped
                (rustLines ((c0 :: crest).drop (l.length - k + 1))) hnfr
            rw [hstep]
            rfl
          refine ⟨hv2, ?_, ?_⟩
          · rw [hch']
            exact hconf2
          · rw [hch']
            have hwdrop : processLines []
                (l.drop k :: rustLines (linesText M)) =
                processLines [] (rustLines (linesText M)) :=
              processLines_dropped (rustLines (linesText M)) hnfr
            rw [hwl, hwdrop]
            rw [remText_zero] at heq2
            exact heq2

theorem processStream_invariant : ∀ (cs : List (List Char))
    (L : List (List Char)) (k : Nat) (buf : List Char),
    ValidStream L → Conf buf L k →
    cs.flatten = remText L k → cutsOk L k cs = true →
    (processStream buf cs).2 = (processLines buf (rustLines (remText L k))).2 := by
  intro cs
  induction cs with
  | nil =>
    intro L k buf hv hconf hflat hcuts
    rw [← hflat]
    rfl
  | cons c cs ihc =>
    intro L k buf hv hconf hflat hcuts
    have hflat' : c ++ cs.flatten = remText L k := hflat
    cases hadv : advance L k c.length with
    | none =>
      simp [cutsOk, hadv] at hcuts
    | some p =>
      obtain ⟨L2, k2⟩ := p
      simp only [cutsOk, hadv, Bool.and_eq_true] at hcuts
      obtain ⟨hcut, hcuts2⟩ := hcuts
      obtain ⟨u, hul, hudecomp⟩ := advance_decomp L k c.length L2 k2
        (conf_bounds hconf).1 (conf_bounds hconf).2 hadv
      have hccs : c ++ cs.flatten = u ++ remText L2 k2 := hflat'.trans hudecomp
      obtain ⟨hcu, hcsrem⟩ := List.append_inj hccs (by rw [hul])
      have hck : c ++ remText L2 k2 = remText L k := by
        rw [hcu, ← hudecomp]
      obtain ⟨hv2, hconf2, heqQ⟩ := chunkStep L k buf c L2 k2 hv hconf hadv hcut hck
      show (processChunk buf c).2 ++
        (processStream (processChunk buf c).1 cs).2 =
        (processLines buf (rustLines (remText L k))).2
      rw [heqQ, ihc L2 k2 (processChunk buf c).1 hv2 hconf2 hcsrem hcuts2]

theorem dataLine_of_decide {l : List Char}
    (h1 : dataHeader.isPrefixOf l = true)
    (h2 : (parseStreamResp (l.drop 6)).isSome = true)
    (h3 : ((List.range l.length).all
      (fun j => decide (j < 6) ||
        (parseStreamResp ((l.take j).drop 6)).isNone)) = true) :
    DataLine l := by
  refine ⟨h1, h2, ?_⟩
  intro k h6 hk
  have hall := List.all_eq_true.mp h3 k (List.mem_range.mpr hk)
  rw [Bool.or_eq_true, decide_eq_true_eq] at hall
  rcases hall with hlt | hnone
  · omega
  · exact Option.isNone_iff_eq_none.mp hnone

/-- C1: amended fragmentation invariance of the stream pipeline. The
original claim — that every split of a complete, valid event stream into
chunks yields the same finalized content blocks as the whole stream — is
false (`frame_reader_fragmentation_cex`): a boundary inside the first six
characters of a `"data: "` line makes the reader drop the line, because the
held fragment is only re-used when the partial line carried the data header,
so a lost `content_block_delta` changes the finalized blocks. Amended: for
every complete valid stream and every split whose chunk boundaries avoid
the first six characters of the interior of every data line (`cutsOk`), the
reader emits exactly the records of the unsplit stream, and the consumer's
receive loop — hence its finalized content blocks — behaves identically on
the two runs. -/
theorem frame_reader_split_invariance (L : List (List Char))
    (cs : List (List Char)) (hv : ValidStream L)
    (hflat : cs.flatten = linesText L) (hcuts : cutsOk L 0 cs = true) :
    readStream cs = readStream [linesText L] ∧
    ∀ (ctx : Ctx) (st : CState),
      recvLoop ctx st (readStream cs) =
        recvLoop ctx st (readStream [linesText L]) := by
  have hconf0 : Conf [] L 0 := by
    cases L with
    | nil => exact ⟨rfl, rfl⟩
    | cons l M => exact Or.inl ⟨rfl, rfl⟩
  have h1 : (processStream [] cs).2 =
      (processLines [] (rustLines (remText L 0))).2 :=
    processStream_invariant cs L 0 [] hv hconf0
      (by rw [hflat, remText_zero]) hcuts
  have h2 : readStream [linesText L] =
      (processLines [] (rustLines (linesText L))).2 := by
    show (processChunk [] (linesText L)).2 ++
      (processStream (processChunk [] (linesText L)).1 []).2 =
      (processLines [] (rustLines (linesText L))).2
    exact List.append_nil _
  have hmain : readStream cs = readStream [linesText L] := by
    show (processStream [] cs).2 = readStream [linesText L]
    rw [h1, remText_zero, h2]
  exact ⟨hmain, fun ctx st => by rw [hmain]⟩

theorem frame_reader_split_invariance_witness :
    (readStream ["data: \x7b\"".toList,
        "type\":\"message_stop\"\x7d\n".toList] =
      readStream [linesText ["data: \x7b\"type\":\"message_stop\"\x7d".toList]]) ∧
    recvLoop ⟨[], fun _ => false⟩ initCState
        (readStream ["data: \x7b\"".toList,
          "type\":\"message_stop\"\x7d\n".toList]) =
      recvLoop ⟨[], fun _ => false⟩ initCState
        (readStream [linesText ["data: \x7b\"type\":\"message_stop\"\x7d".toList]]) :=
  ⟨(frame_reader_split_invariance
      ["data: \x7b\"type\":\"message_stop\"\x7d".toList]
      ["data: \x7b\"".toList, "type\":\"message_stop\"\x7d\n".toList]
      (ValidStream.stop ⟨by decide, by decide⟩
        (dataLine_of_decide rfl rfl rfl)
        ⟨⟨"message_stop", none, none, none⟩, rfl, rfl⟩
        (fun x hx => absurd hx (List.not_mem_nil x)))
      rfl rfl).1,
   (frame_reader_split_invariance
      ["data: \x7b\"type\":\"message_stop\"\x7d".toList]
      ["data: \x7b\"".toList, "type\":\"message_stop\"\x7d\n".toList]
      (ValidStream.stop ⟨by decide, by decide⟩
        (dataLine_of_decide rfl rfl rfl)
        ⟨⟨"message_stop", none, none, none⟩, rfl, rfl⟩
        (fun x hx => absurd hx (List.not_mem_nil x)))
      rfl rfl).2 ⟨[], fun _ => false⟩ initCState⟩

theorem btInsert_mem_keys {i x : Int} {b : ContentBlock} :
    ∀ {bs : List (Int × ContentBlock)},
    x ∈ (btInsert i b bs).map Prod.fst → x = i ∨ x ∈ bs.map Prod.fst := by
  intro bs
  induction bs with
  | nil =>
    intro h
    simp [btInsert] at h
    exact Or.inl h
  | cons p rest ih =>
    obtain ⟨j, c⟩ := p
    intro h
    simp only [btInsert] at h
    by_cases hij : i < j
    · rw [if_pos hij] at h
      simp only [List.map_cons, List.mem_cons] at h
      rcases h with h | h | h
      · exact Or.inl h
      · exact Or.inr (by simp [h])
      · exact Or.inr (by simp [h])
    · by_cases hij2 : i = j
      · rw [if_neg hij, if_pos hij2] at h
        simp only [List.map_cons, List.mem_cons] at h
        rcases h with h | h
        · exact Or.inl h
        · exact Or.inr (by simp [h])
      · rw [if_neg hij, if_neg hij2] at h
        simp only [List.map_cons, List.mem_cons] at h
        rcases h with h | h
        · exact Or.inr (by simp [h])
        · rcases ih h with h2 | h2
          · exact Or.inl h2
          · exact Or.inr (by simp [h2])

theorem btInsert_keys (i : Int) (b : ContentBlock) :
    ∀ (bs : List (Int × ContentBlock)),
    (bs.map Prod.fst).Pairwise (· < ·) →
    ((btInsert i b bs).map Prod.fst).Pairwise (· < ·) := by
  intro bs
  induction bs with
  | nil =>
    intro _
    simp [btInsert]
  | cons p rest ih =>
    obtain ⟨j, c⟩ := p
    intro h
    simp only [List.map_cons, List.pairwise_cons] at h
    obtain ⟨hj, hrest⟩ := h
    simp only [btInsert]
    by_cases hij : i < j
    · rw [if_pos hij]
      simp only [List.map_cons, List.pairwise_cons]
      refine ⟨?_, hj, hrest⟩
      intro x hx
      rcases List.mem_cons.mp hx with rfl | hx2
      · exact hij
      · exact lt_trans hij (hj x hx2)
    · by_cases hij2 : i = j
      · rw [if_neg hij, if_pos hij2]
        subst hij2
        simp only [List.map_cons, List.pairwise_cons]
        exact ⟨hj, hrest⟩
      · rw [if_neg hij, if_neg hij2]
        simp only [List.map_cons, List.pairwise_cons]
        refine ⟨?_, ih hrest⟩
        intro x hx
        rcases btInsert_mem_keys hx with rfl | hx2
        · omega
        · exact hj x hx2

theorem btSet_keys (i : Int) (b : ContentBlock) :
    ∀ (bs : List (Int × ContentBlock)),
    (btSet i b bs).map Prod.fst = bs.map Prod.fst := by
  intro bs
  induction bs with
  | nil => rfl
  | cons p rest ih =>
    obtain ⟨j, c⟩ := p
    simp only [btSet]
    by_cases hji : j == i
    · rw [if_pos hji]
      rfl
    · rw [if_neg hji]
      simp only [List.map_cons, ih]

theorem finalizeBlocks_keys {ph : String → Bool}
    {oas : List (Int × AnthropicContentBlock)}
    {ous : List AnthropicContentBlock} :
    ∀ {bs : List (Int × ContentBlock)},
    finalizeBlocks ph bs = .ok (oas, ous) →
    oas.map Prod.fst = bs.map Prod.fst := by
  intro bs
  induction bs generalizing oas ous with
  | nil =>
    intro h
    simp only [finalizeBlocks] at h
    rw [Except.ok.injEq, Prod.mk.injEq] at h
    rw [← h.1]
    rfl
  | cons p rest ih =>
    obtain ⟨i, b⟩ := p
    intro h
    simp only [finalizeBlocks] at h
    cases hoc : getOriginalContentBlock b with
    | error e => rw [hoc] at h; cases h
    | ok oc =>
      rw [hoc] at h
      cases huc : getUserContentBlock ph b with
      | none =>
        rw [huc] at h
        cases hrec : finalizeBlocks ph rest with
        | error e => rw [hrec] at h; cases h
        | ok q =>
          obtain ⟨oas2, ous2⟩ := q
          rw [hrec] at h
          rw [Except.ok.injEq, Prod.mk.injEq] at h
          rw [← h.1]
          simp only [List.map_cons, ih hrec]
      | some r =>
        cases r with
        | error e => rw [huc] at h; cases h
        | ok uc =>
          rw [huc] at h
          cases hrec : finalizeBlocks ph rest with
          | error e => rw [hrec] at h; cases h
          | ok q =>
            obtain ⟨oas2, ous2⟩ := q
            rw [hrec] at h
            rw [Except.ok.injEq, Prod.mk.injEq] at h
            rw [← h.1]
            simp only [List.map_cons, ih hrec]

theorem handleMessage_inv (ctx : Ctx) (st : CState) (m : StreamResp)
    (h1 : (st.blocks.map Prod.fst).Pairwise (· < ·))
    (h2 : ∀ batch ∈ st.emitted, (batch.map Prod.fst).Pairwise (· < ·)) :
    (((handleMessage ctx st m).state).blocks.map Prod.fst).Pairwise (· < ·) ∧
    ∀ batch ∈ ((handleMessage ctx st m).state).emitted,
      (batch.map Prod.fst).Pairwise (· < ·) := by
  unfold handleMessage
  repeat' split
  all_goals try exact ⟨h1, h2⟩
  all_goals
    first
    | exact ⟨by rw [StepRes.state]; rw [btSet_keys]; exact h1, h2⟩
    | exact ⟨btInsert_keys _ _ _ h1, h2⟩
    | (rename_i oas ous hfin
       refine ⟨h1, ?_⟩
       intro batch hb
       rcases List.mem_append.mp hb with hb1 | hb2
       · exact h2 batch hb1
       · rw [List.mem_singleton] at hb2
         subst hb2
         rw [finalizeBlocks_keys hfin]
         exact h1)

theorem recvLoop_inv (ctx : Ctx) : ∀ (evs : List StreamResp) (st : CState),
    (st.blocks.map Prod.fst).Pairwise (· < ·) →
    (∀ batch ∈ st.emitted, (batch.map Prod.fst).Pairwise (· < ·)) →
    (((recvLoop ctx st evs).state).blocks.map Prod.fst).Pairwise (· < ·) ∧
    ∀ batch ∈ ((recvLoop ctx st evs).state).emitted,
      (batch.map Prod.fst).Pairwise (· < ·) := by
  intro evs
  induction evs with
  | nil =>
    intro st h1 h2
    exact ⟨h1, h2⟩
  | cons m ms ih =>
    intro st h1 h2
    have hstep := handleMessage_inv ctx st m h1 h2
    have hre : recvLoop ctx st (m :: ms) =
        (match handleMessage ctx st m with
         | .cont st2 => recvLoop ctx st2 ms
         | .brk st2 => .done st2
         | .fail st2 e => .fail st2 e
         | .panicked st2 p => .panicked st2 p) := rfl
    rw [hre]
    cases hm : handleMessage ctx st m with
    | cont st2 =>
      rw [hm] at hstep
      exact ih st2 hstep.1 hstep.2
    | brk st2 =>
      rw [hm] at hstep
      exact hstep
    | fail st2 e =>
      rw [hm] at hstep
      exact hstep
    | panicked st2 p =>
      rw [hm] at hstep
      exact hstep

theorem runTurn_inv (ctx : Ctx) (st : CState) (t : Turn)
    (h1 : (st.blocks.map Prod.fst).Pairwise (· < ·))
    (h2 : ∀ batch ∈ st.emitted, (batch.map Prod.fst).Pairwise (· < ·)) :
    (((runTurn ctx st t).state).blocks.map Prod.fst).Pairwise (· < ·) ∧
    ∀ batch ∈ ((runTurn ctx st t).state).emitted,
      (batch.map Prod.fst).Pairwise (· < ·) := by
  have hrl := recvLoop_inv ctx t.evs st h1 h2
  unfold runTurn
  cases hr : recvLoop ctx st t.evs with
  | done st2 =>
    rw [hr] at hrl
    cases t.transport with
    | some e => exact hrl
    | none => exact hrl
  | fail st2 e =>
    rw [hr] at hrl
    exact hrl
  | panicked st2 p =>
    rw [hr] at hrl
    exact hrl

theorem runLoop_inv (ctx : Ctx) : ∀ (fuel : Nat) (st : CState) (turns : List Turn),
    (st.blocks.map Prod.fst).Pairwise (· < ·) →
    (∀ batch ∈ st.emitted, (batch.map Prod.fst).Pairwise (· < ·)) →
    ∀ batch ∈ (((runLoop ctx fuel st turns).2).state).emitted,
      (batch.map Prod.fst).Pairwise (· < ·) := by
  intro fuel
  induction fuel with
  | zero =>
    intro st turns _ h2
    exact h2
  | succ f ih =>
    intro st turns h1 h2
    cases turns with
    | nil =>
      have hre : runLoop ctx (f + 1) st [] =
          (match runTurn ctx { st with blocks := [], newMessage := false }
              (⟨[], none⟩ : Turn) with
           | .fail st2 e => (1, LoopRes.fail st2 e)
           | .panicked st2 p => (1, LoopRes.panicked st2 p)
           | .done st2 =>
             if st2.newMessage then
               ((runLoop ctx f st2 []).1 + 1, (runLoop ctx f st2 []).2)
             else (1, LoopRes.ok st2)) := rfl
      have hti := runTurn_inv ctx { st with blocks := [], newMessage := false }
        (⟨[], none⟩ : Turn) (by simp) h2
      rw [hre]
      split
      · rename_i st2 e hr
        rw [hr] at hti
        exact hti.2
      · rename_i st2 p hr
        rw [hr] at hti
        exact hti.2
      · rename_i st2 hr
        rw [hr] at hti
        split
        · exact ih st2 [] hti.1 hti.2
        · exact hti.2
    | cons t0 rest =>
      have hre : runLoop ctx (f + 1) st (t0 :: rest) =
          (match runTurn ctx { st with blocks := [], newMessage := false } t0 with
           | .fail st2 e => (1, LoopRes.fail st2 e)
           | .panicked st2 p => (1, LoopRes.panicked st2 p)
           | .done st2 =>
             if st2.newMessage then
               ((runLoop ctx f st2 rest).1 + 1, (runLoop ctx f st2 rest).2)
             else (1, LoopRes.ok st2)) := rfl
      have hti := runTurn_inv ctx { st with blocks := [], newMessage := false }
        t0 (by simp) h2
      rw [hre]
      split
      · rename_i st2 e hr
        rw [hr] at hti
        exact hti.2
      · rename_i st2 p hr
        rw [hr] at hti
        exact hti.2
      · rename_i st2 hr
        rw [hr] at hti
        split
        · exact ih st2 rest hti.1 hti.2
        · exact hti.2

/-- C2: for every tool registry and environment, every fuel bound and
every sequence of network turns, each batch of finalized content
blocks handed to the orchestrator at a `tool_use` stop reason lists
its block indices in strictly ascending order: the accumulator is a
`BTreeMap` keyed by the block index, and the `tool_use` handler
iterates `content_blocks.values()` in key order. -/
theorem consumer_tool_use_ascending (ctx : Ctx) (fuel : Nat)
    (turns : List Turn) (batch : List (Int × AnthropicContentBlock))
    (hb : batch ∈ (((runLoop ctx fuel initCState turns).2).state).emitted) :
    (batch.map Prod.fst).Pairwise (· < ·) :=
  runLoop_inv ctx fuel initCState turns (by simp [initCState])
    (by intro b hb2; cases hb2) batch hb

theorem consumer_tool_use_ascending_witness :
    (([((0 : Int), AnthropicContentBlock.text "Hello"),
       ((2 : Int), AnthropicContentBlock.text "")]).map Prod.fst).Pairwise
      (· < ·) :=
  consumer_tool_use_ascending ⟨[], fun _ => false⟩ 2
    [⟨[⟨"content_block_start", some 0,
          some [("type", Json.str "text"), ("text", Json.str "Hello")], none⟩,
        ⟨"content_block_start", some 2,
          some [("type", Json.str "text")], none⟩,
        ⟨"message_delta", none, none,
          some [("stop_reason", Json.str "tool_use")]⟩], none⟩]
    [((0 : Int), AnthropicContentBlock.text "Hello"),
     ((2 : Int), AnthropicContentBlock.text "")]
    (by rw [show (((runLoop ⟨[], fun _ => false⟩ 2 initCState
        [⟨[⟨"content_block_start", some 0,
              some [("type", Json.str "text"), ("text", Json.str "Hello")], none⟩,
            ⟨"content_block_start", some 2,
              some [("type", Json.str "text")], none⟩,
            ⟨"message_delta", none, none,
              some [("stop_reason", Json.str "tool_use")]⟩], none⟩]).2).state).emitted =
          [[((0 : Int), AnthropicContentBlock.text "Hello"),
            ((2 : Int), AnthropicContentBlock.text "")]] from rfl]
        exact List.mem_singleton.mpr rfl)

theorem getUserContentBlock_ok {ph : String → Bool} {b : ContentBlock}
    {r : Except AnyErr AnthropicContentBlock}
    (h : getUserContentBlock ph b = some r) :
    ∃ c, r = Except.ok c := by
  cases b with
  | text acc => cases h
  | toolUse id name tool acc =>
    simp only [getUserContentBlock] at h
    cases hi : invokeTool ph tool acc with
    | ok content =>
      rw [hi] at h
      rw [Option.some.injEq] at h
      exact ⟨_, h.symm⟩
    | error e =>
      rw [hi] at h
      rw [Option.some.injEq] at h
      exact ⟨_, h.symm⟩

theorem finalizeBlocks_error_first {ph : String → Bool} {i : Int}
    {id name acc : String} {tool : Tool}
    {rest : List (Int × ContentBlock)} :
    ∀ {pre : List (Int × ContentBlock)},
    (∀ p ∈ pre, ∃ a, getOriginalContentBlock p.2 = .ok a) →
    parseJsonFull acc.toList = none →
    finalizeBlocks ph (pre ++ (i, ContentBlock.toolUse id name tool acc) :: rest) =
      .error ⟨["Failed to parse accumulated JSON: " ++ acc], "JSON parse error"⟩ := by
  intro pre
  induction pre with
  | nil =>
    intro _ hparse
    simp only [List.nil_append, finalizeBlocks, getOriginalContentBlock,
      getInputValue, hparse]
  | cons p pre2 ih =>
    intro hok hparse
    obtain ⟨a, ha⟩ := hok p (by simp)
    obtain ⟨j, b⟩ := p
    rw [List.cons_append]
    simp only [finalizeBlocks]
    rw [ha]
    have ihp := ih (fun q hq => hok q (by simp [hq])) hparse
    cases huc : getUserContentBlock ph b with
    | none =>
      rw [ihp]
    | some r =>
      obtain ⟨c, rfl⟩ := getUserContentBlock_ok huc
      rw [ihp]

/-- C3: each fatal condition aborts the conversation immediately with a
propagated error and no further network request: a `message_delta` with
stop reason `max_tokens` fails the receive loop with
`Maximum token count exceeded`; a transport failure of the spawned query
fails the turn with the `During query` context; accumulated tool-call
JSON that fails to parse at `tool_use` finalization fails with the
`Failed to parse accumulated JSON` context; and any turn that fails makes
the multi-turn loop stop after exactly the one request already made. -/
theorem consumer_fatal_aborts :
    (∀ (ctx : Ctx) (st : CState) (m : StreamResp) (d : List (String × Json)),
      m.type = "message_delta" → m.delta = some d →
      jlookup d "stop_reason" = some (Json.str "max_tokens") →
      handleMessage ctx st m = .fail st (AnyErr.mk0 "Maximum token count exceeded")) ∧
    (∀ (ctx : Ctx) (st : CState) (t : Turn) (st2 : CState) (e : AnyErr),
      recvLoop ctx st t.evs = .done st2 → t.transport = some e →
      runTurn ctx st t = .fail st2 (e.addCtx "During query")) ∧
    (∀ (ctx : Ctx) (st : CState) (m : StreamResp) (d : List (String × Json))
      (pre : List (Int × ContentBlock)) (i : Int) (id name acc : String)
      (tool : Tool) (rest : List (Int × ContentBlock)),
      m.type = "message_delta" → m.delta = some d →
      jlookup d "stop_reason" = some (Json.str "tool_use") →
      st.blocks = pre ++ (i, ContentBlock.toolUse id name tool acc) :: rest →
      (∀ p ∈ pre, ∃ a, getOriginalContentBlock p.2 = .ok a) →
      parseJsonFull acc.toList = none →
      handleMessage ctx st m =
        .fail st ⟨["Failed to parse accumulated JSON: " ++ acc], "JSON parse error"⟩) ∧
    (∀ (ctx : Ctx) (fuel : Nat) (st : CState) (t : Turn) (rest : List Turn)
      (st2 : CState) (e : AnyErr),
      runTurn ctx { st with blocks := [], newMessage := false } t = .fail st2 e →
      runLoop ctx (fuel + 1) st (t :: rest) = (1, .fail st2 e)) := by
  refine ⟨?_, ?_, ?_, ?_⟩
  · intro ctx st m d htype hdelta hsr
    obtain ⟨mt, mi, mcb, md⟩ := m
    simp only at htype hdelta
    subst htype
    subst hdelta
    simp [handleMessage, hsr, Json.asStr]
  · intro ctx st t st2 e hrecv htr
    unfold runTurn
    rw [hrecv, htr]
  · intro ctx st m d pre i id name acc tool rest htype hdelta hsr hblocks hok hparse
    obtain ⟨mt, mi, mcb, md⟩ := m
    simp only at htype hdelta
    subst htype
    subst hdelta
    simp [handleMessage, hsr, Json.asStr, hblocks,
      finalizeBlocks_error_first hok hparse]
  · intro ctx fuel st t rest st2 e hrt
    have hre : runLoop ctx (fuel + 1) st (t :: rest) =
        (match runTurn ctx { st with blocks := [], newMessage := false } t with
         | .fail st3 e2 => (1, LoopRes.fail st3 e2)
         | .panicked st3 p => (1, LoopRes.panicked st3 p)
         | .done st3 =>
           if st3.newMessage then
             ((runLoop ctx fuel st3 rest).1 + 1, (runLoop ctx fuel st3 rest).2)
           else (1, LoopRes.ok st3)) := rfl
    rw [hre, hrt]

theorem consumer_fatal_aborts_witness :
    handleMessage ⟨[], fun _ => false⟩ initCState
        ⟨"message_delta", none, none,
          some [("stop_reason", Json.str "max_tokens")]⟩ =
      .fail initCState (AnyErr.mk0 "Maximum token count exceeded") ∧
    runTurn ⟨[], fun _ => false⟩ initCState ⟨[], some (AnyErr.mk0 "boom")⟩ =
      .fail initCState ((AnyErr.mk0 "boom").addCtx "During query") ∧
    handleMessage ⟨[], fun _ => false⟩
        ⟨[((0 : Int), ContentBlock.toolUse "id1" "t1"
            ⟨[], fun _ => Except.error (AnyErr.mk0 "x")⟩ "\x7b")], false, [], []⟩
        ⟨"message_delta", none, none,
          some [("stop_reason", Json.str "tool_use")]⟩ =
      .fail ⟨[((0 : Int), ContentBlock.toolUse "id1" "t1"
            ⟨[], fun _ => Except.error (AnyErr.mk0 "x")⟩ "\x7b")], false, [], []⟩
        ⟨["Failed to parse accumulated JSON: " ++ "\x7b"], "JSON parse error"⟩ ∧
    runLoop ⟨[], fun _ => false⟩ 5 initCState
        [⟨[⟨"message_delta", none, none,
            some [("stop_reason", Json.str "max_tokens")]⟩], none⟩] =
      (1, .fail ⟨[], false, [], []⟩ (AnyErr.mk0 "Maximum token count exceeded")) :=
  ⟨consumer_fatal_aborts.1 _ _ _ _ rfl rfl rfl,
   consumer_fatal_aborts.2.1 _ _ _ _ _ rfl rfl,
   consumer_fatal_aborts.2.2.1 ⟨[], fun _ => false⟩
     ⟨[((0 : Int), ContentBlock.toolUse "id1" "t1"
         ⟨[], fun _ => Except.error (AnyErr.mk0 "x")⟩ "\x7b")], false, [], []⟩
     ⟨"message_delta", none, none,
       some [("stop_reason", Json.str "tool_use")]⟩
     [("stop_reason", Json.str "tool_use")]
     [] 0 "id1" "t1" "\x7b"
     ⟨[], fun _ => Except.error (AnyErr.mk0 "x")⟩ []
     rfl rfl rfl rfl (fun p hp => absurd hp (List.not_mem_nil p)) rfl,
   consumer_fatal_aborts.2.2.2 _ 4 _ _ _ _ _ rfl⟩

/-- C4: a tool-invocation failure is never fatal to the conversation:
`get_user_content_block` always returns `Some(Ok(ToolResult ...))` for
the invocation's id, a missing prerequisite binary or a failing tool
run only changes the result text to the rendered invocation error, the
`tool_use` handler then continues the loop with `new_message` set, and
the multi-turn loop issues another request. -/
theorem tool_failure_nonfatal :
    (∀ (ph : String → Bool) (id name acc : String) (tool : Tool),
      ∃ content,
        getUserContentBlock ph (ContentBlock.toolUse id name tool acc) =
          some (Except.ok (AnthropicContentBlock.toolResult id content))) ∧
    (∀ (ph : String → Bool) (id name acc : String) (tool : Tool) (b : String),
      tool.binaries.find? (fun x => !(ph x)) = some b →
      getUserContentBlock ph (ContentBlock.toolUse id name tool acc) =
        some (.ok (.toolResult id
          ("An error occured invoking the tool: " ++ ("Invoking " ++ name))))) ∧
    (∀ (ph : String → Bool) (id name acc : String) (tool : Tool)
      (v : Json) (e : AnyErr),
      tool.binaries.find? (fun x => !(ph x)) = none →
      parseJsonFull acc.toList = some v →
      tool.run v = .error e →
      getUserContentBlock ph (ContentBlock.toolUse id name tool acc) =
        some (.ok (.toolResult id
          ("An error occured invoking the tool: " ++ ("Invoking " ++ name))))) ∧
    (∀ (ctx : Ctx) (st : CState) (m : StreamResp) (d : List (String × Json))
      (oas : List (Int × AnthropicContentBlock))
      (ous : List AnthropicContentBlock),
      m.type = "message_delta" → m.delta = some d →
      jlookup d "stop_reason" = some (Json.str "tool_use") →
      finalizeBlocks ctx.pathHas st.blocks = .ok (oas, ous) →
      handleMessage ctx st m = .cont { st with
        messages := st.messages ++
          [⟨"assistant", .content (oas.map (fun p => p.2))⟩,
           ⟨"user", .content ous⟩]
        newMessage := true
        emitted := st.emitted ++ [oas] }) ∧
    (∀ (ctx : Ctx) (fuel : Nat) (st : CState) (t : Turn) (rest : List Turn)
      (st2 : CState),
      runTurn ctx { st with blocks := [], newMessage := false } t = .done st2 →
      st2.newMessage = true →
      runLoop ctx (fuel + 1) st (t :: rest) =
        ((runLoop ctx fuel st2 rest).1 + 1, (runLoop ctx fuel st2 rest).2)) := by
  refine ⟨?_, ?_, ?_, ?_, ?_⟩
  · intro ph id name acc tool
    simp only [getUserContentBlock]
    cases hi : invokeTool ph tool acc with
    | ok c => exact ⟨c, rfl⟩
    | error e => exact ⟨_, rfl⟩
  · intro ph id name acc tool b hfind
    simp [getUserContentBlock, invokeTool, hfind, AnyErr.addCtx,
      AnyErr.display, AnyErr.mk0]
  · intro ph id name acc tool v e hfind hparse hrun
    have hparse2 : parseJsonFull acc.data = some v := hparse
    simp [getUserContentBlock, invokeTool, getInputValue, hfind, hparse2,
      hrun, AnyErr.addCtx, AnyErr.display]
  · intro ctx st m d oas ous htype hdelta hsr hfin
    obtain ⟨mt, mi, mcb, md⟩ := m
    simp only at htype hdelta
    subst htype
    subst hdelta
    simp [handleMessage, hsr, Json.asStr, hfin]
  · intro ctx fuel st t rest st2 hrt hnm
    have hre : runLoop ctx (fuel + 1) st (t :: rest) =
        (match runTurn ctx { st with blocks := [], newMessage := false } t with
         | .fail st3 e2 => (1, LoopRes.fail st3 e2)
         | .panicked st3 p => (1, LoopRes.panicked st3 p)
         | .done st3 =>
           if st3.newMessage then
             ((runLoop ctx fuel st3 rest).1 + 1, (runLoop ctx fuel st3 rest).2)
           else (1, LoopRes.ok st3)) := rfl
    rw [hre, hrt]
    show (if st2.newMessage then
        ((runLoop ctx fuel st2 rest).1 + 1, (runLoop ctx fuel st2 rest).2)
      else (1, LoopRes.ok st2)) =
      ((runLoop ctx fuel st2 rest).1 + 1, (runLoop ctx fuel st2 rest).2)
    rw [if_pos hnm]

theorem tool_failure_nonfatal_witness :
    (∃ content,
      getUserContentBlock (fun _ => false)
          (ContentBlock.toolUse "id1" "t1"
            ⟨["gitx"], fun _ => Except.ok "ran"⟩ "1") =
        some (Except.ok (AnthropicContentBlock.toolResult "id1" content))) ∧
    getUserContentBlock (fun _ => false)
        (ContentBlock.toolUse "id1" "t1"
          ⟨["gitx"], fun _ => Except.ok "ran"⟩ "1") =
      some (.ok (.toolResult "id1"
        ("An error occured invoking the tool: " ++ ("Invoking " ++ "t1")))) ∧
    getUserContentBlock (fun _ => true)
        (ContentBlock.toolUse "id1" "t1"
          ⟨[], fun _ => Except.error (AnyErr.mk0 "bad")⟩ "1") =
      some (.ok (.toolResult "id1"
        ("An error occured invoking the tool: " ++ ("Invoking " ++ "t1")))) ∧
    handleMessage ⟨[], fun _ => false⟩ initCState
        ⟨"message_delta", none, none,
          some [("stop_reason", Json.str "tool_use")]⟩ =
      .cont { initCState with
        messages := initCState.messages ++
          [⟨"assistant", .content []⟩, ⟨"user", .content []⟩]
        newMessage := true
        emitted := initCState.emitted ++ [[]] } ∧
    runLoop ⟨[], fun _ => false⟩ 3 initCState
        [⟨[⟨"message_delta", none, none,
            some [("stop_reason", Json.str "tool_use")]⟩], none⟩] =
      ((runLoop ⟨[], fun _ => false⟩ 2
          ⟨[], true, [⟨"assistant", .content []⟩, ⟨"user", .content []⟩], [[]]⟩
          []).1 + 1,
       (runLoop ⟨[], fun _ => false⟩ 2
          ⟨[], true, [⟨"assistant", .content []⟩, ⟨"user", .content []⟩], [[]]⟩
          []).2) :=
  ⟨tool_failure_nonfatal.1 (fun _ => false) "id1" "t1" "1"
     ⟨["gitx"], fun _ => Except.ok "ran"⟩,
   tool_failure_nonfatal.2.1 (fun _ => false) "id1" "t1" "1"
     ⟨["gitx"], fun _ => Except.ok "ran"⟩ "gitx" rfl,
   tool_failure_nonfatal.2.2.1 (fun _ => true) "id1" "t1" "1"
     ⟨[], fun _ => Except.error (AnyErr.mk0 "bad")⟩ (Json.num 1)
     (AnyErr.mk0 "bad") rfl rfl rfl,
   tool_failure_nonfatal.2.2.2.1 ⟨[], fun _ => false⟩ initCState
     ⟨"message_delta", none, none,
       some [("stop_reason", Json.str "tool_use")]⟩
     [("stop_reason", Json.str "tool_use")] [] [] rfl rfl rfl rfl,
   tool_failure_nonfatal.2.2.2.2 ⟨[], fun _ => false⟩ 2 initCState
     ⟨[⟨"message_delta", none, none,
        some [("stop_reason", Json.str "tool_use")]⟩], none⟩ []
     ⟨[], true, [⟨"assistant", .content []⟩, ⟨"user", .content []⟩], [[]]⟩
     rfl rfl⟩

/-- C9: a `content_block_start` naming a tool absent from the static
registry aborts the loop with the propagated
`Could not find tool with name` error at block-start time; by contrast
tool execution failures never fail `tool_use` finalization (every
block whose accumulated input parses finalizes, execution errors being
rendered into tool-result text). -/
theorem unknown_tool_fatal :
    (∀ (ctx : Ctx) (st : CState) (m : StreamResp)
      (cb : List (String × Json)) (i : Int) (name : String),
      m.type = "content_block_start" → m.content_block = some cb →
      jlookup cb "type" = some (Json.str "tool_use") →
      m.index = some i →
      jlookup cb "name" = some (Json.str name) →
      ctx.toolMap.find? (fun p => p.1 == name) = none →
      handleMessage ctx st m =
        .fail st (AnyErr.mk0 ("Could not find tool with name " ++ name))) ∧
    (∀ (ph : String → Bool) (bs : List (Int × ContentBlock)),
      (∀ p ∈ bs, ∃ a, getOriginalContentBlock p.2 = .ok a) →
      ∃ r, finalizeBlocks ph bs = .ok r) := by
  constructor
  · intro ctx st m cb i name htype hcb hct hidx hname hfind
    obtain ⟨mt, mi, mcb, md⟩ := m
    simp only at htype hcb hidx
    subst htype
    subst hcb
    subst hidx
    simp [handleMessage, hct, Json.asStr, hname, hfind]
  · intro ph bs
    induction bs with
    | nil =>
      intro _
      exact ⟨([], []), rfl⟩
    | cons p rest ih =>
      intro hok
      obtain ⟨a, ha⟩ := hok p (by simp)
      obtain ⟨i, b⟩ := p
      obtain ⟨⟨oas, ous⟩, hr⟩ := ih (fun q hq => hok q (by simp [hq]))
      simp only [finalizeBlocks]
      rw [ha]
      cases huc : getUserContentBlock ph b with
      | none =>
        rw [hr]
        exact ⟨_, rfl⟩
      | some r =>
        obtain ⟨c, rfl⟩ := getUserContentBlock_ok huc
        rw [hr]
        exact ⟨_, rfl⟩

theorem unknown_tool_fatal_witness :
    handleMessage ⟨[], fun _ => false⟩ initCState
        ⟨"content_block_start", some 0,
          some [("type", Json.str "tool_use"), ("name", Json.str "mytool")],
          none⟩ =
      .fail initCState
        (AnyErr.mk0 ("Could not find tool with name " ++ "mytool")) ∧
    (∃ r, finalizeBlocks (fun _ => false)
        [((0 : Int), ContentBlock.toolUse "id1" "t1"
          ⟨["gitx"], fun _ => Except.ok "ran"⟩ "1")] = .ok r) :=
  ⟨unknown_tool_fatal.1 ⟨[], fun _ => false⟩ initCState
     ⟨"content_block_start", some 0,
       some [("type", Json.str "tool_use"), ("name", Json.str "mytool")],
       none⟩
     [("type", Json.str "tool_use"), ("name", Json.str "mytool")]
     0 "mytool" rfl rfl rfl rfl rfl rfl,
   unknown_tool_fatal.2 (fun _ => false)
     [((0 : Int), ContentBlock.toolUse "id1" "t1"
       ⟨["gitx"], fun _ => Except.ok "ran"⟩ "1")]
     (by
       intro p hp
       rw [List.mem_singleton] at hp
       subst hp
       exact ⟨AnthropicContentBlock.toolUse "id1" "t1" (Json.num 1), rfl⟩)⟩

/-- C10: a `message_delta` whose `stop_reason` value is not a JSON
string, or a `content_block_start` whose content-block `type` value is
not a JSON string, makes the consumer panic (the `.as_str().unwrap()`
calls), rather than skipping the event or returning an error. -/
theorem consumer_nonstring_panics :
    (∀ (ctx : Ctx) (st : CState) (m : StreamResp)
      (d : List (String × Json)) (v : Json),
      m.type = "message_delta" → m.delta = some d →
      jlookup d "stop_reason" = some v → v.asStr = none →
      handleMessage ctx st m =
        .panicked st "called Option::unwrap on a None value") ∧
    (∀ (ctx : Ctx) (st : CState) (m : StreamResp)
      (cb : List (String × Json)) (v : Json) (i : Int),
      m.type = "content_block_start" → m.content_block = some cb →
      jlookup cb "type" = some v → m.index = some i → v.asStr = none →
      handleMessage ctx st m =
        .panicked st "called Option::unwrap on a None value") := by
  constructor
  · intro ctx st m d v htype hdelta hsr hstr
    obtain ⟨mt, mi, mcb, md⟩ := m
    simp only at htype hdelta
    subst htype
    subst hdelta
    simp [handleMessage, hsr, hstr]
  · intro ctx st m cb v i htype hcb hct hidx hstr
    obtain ⟨mt, mi, mcb, md⟩ := m
    simp only at htype hcb hidx
    subst htype
    subst hcb
    subst hidx
    simp [handleMessage, hct, hstr]

theorem consumer_nonstring_panics_witness :
    handleMessage ⟨[], fun _ => false⟩ initCState
        ⟨"message_delta", none, none,
          some [("stop_reason", Json.num 5)]⟩ =
      .panicked initCState "called Option::unwrap on a None value" ∧
    handleMessage ⟨[], fun _ => false⟩ initCState
        ⟨"content_block_start", some 0,
          some [("type", Json.num 7)], none⟩ =
      .panicked initCState "called Option::unwrap on a None value" :=
  ⟨consumer_nonstring_panics.1 ⟨[], fun _ => false⟩ initCState
     ⟨"message_delta", none, none, some [("stop_reason", Json.num 5)]⟩
     [("stop_reason", Json.num 5)] (Json.num 5) rfl rfl rfl rfl,
   consumer_nonstring_panics.2 ⟨[], fun _ => false⟩ initCState
     ⟨"content_block_start", some 0, some [("type", Json.num 7)], none⟩
     [("type", Json.num 7)] (Json.num 7) 0 rfl rfl rfl rfl rfl⟩

/-- C5: in `parse_text`, a top-level heading whose text is `Thoughts`
(ASCII case-insensitively) arms a rollback point one below the current
output length (the index of the heading's `# ` prefix) while emitting
the bold heading text; a later heading start truncates the output back
to the rollback point and consumes it (`take()`), so the point is used
at most once; and no step re-arms the rollback point except a text
event at heading level one matching `Thoughts`. -/
theorem markdown_thoughts_rollback :
    (∀ (st : MdState) (s : String),
      st.current_heading_level = 1 →
      eqIgnoreAsciiCase s "Thoughts" = true →
      st.code_block_language = none →
      parseTextStep st (.text s) = some { st with
        thoughts_heading := some (st.output.length - 1)
        output := st.output ++ [.bold s] }) ∧
    (∀ (st : MdState) (lv : Nat) (th : Nat),
      st.thoughts_heading = some th →
      parseTextStep st (.startHeading lv) = some { st with
        output := st.output.take th ++ [.text (headingMark lv)]
        thoughts_heading := none
        current_heading_level := (lv : Int) }) ∧
    (∀ (st : MdState) (e : MdEvent) (st2 : MdState),
      st.thoughts_heading = none →
      parseTextStep st e = some st2 →
      (∀ s, e = MdEvent.text s →
        ¬(st.current_heading_level = 1 ∧ eqIgnoreAsciiCase s "Thoughts" = true)) →
      st2.thoughts_heading = none) := by
  refine ⟨?_, ?_, ?_⟩
  · intro st s hchl heq hcbl
    obtain ⟨o, cbl, at2, em, sg, li, lx, chl, th⟩ := st
    simp only at hchl hcbl
    subst hchl
    subst hcbl
    simp [parseTextStep, heq]
  · intro st lv th hth
    obtain ⟨o, cbl, at2, em, sg, li, lx, chl, th2⟩ := st
    simp only at hth
    subst hth
    simp [parseTextStep]
  · intro st e st2 hth hstep hne
    cases e with
    | startHeading lv =>
      simp only [parseTextStep, hth] at hstep
      rw [Option.some.injEq] at hstep
      subst hstep
      rfl
    | endHeading =>
      simp only [parseTextStep] at hstep
      rw [Option.some.injEq] at hstep
      subst hstep
      exact hth
    | startParagraph =>
      simp only [parseTextStep] at hstep
      rw [Option.some.injEq] at hstep
      subst hstep
      exact hth
    | endParagraph =>
      simp only [parseTextStep] at hstep
      rw [Option.some.injEq] at hstep
      subst hstep
      exact hth
    | startEmphasis =>
      simp only [parseTextStep] at hstep
      rw [Option.some.injEq] at hstep
      subst hstep
      exact hth
    | endEmphasis =>
      simp only [parseTextStep] at hstep
      rw [Option.some.injEq] at hstep
      subst hstep
      exact hth
    | startStrong =>
      simp only [parseTextStep] at hstep
      rw [Option.some.injEq] at hstep
      subst hstep
      exact hth
    | endStrong =>
      simp only [parseTextStep] at hstep
      rw [Option.some.injEq] at hstep
      subst hstep
      exact hth
    | startList idx =>
      cases hli : st.list_indent with
      | none =>
        simp only [parseTextStep, hli] at hstep
        rw [Option.some.injEq] at hstep
        subst hstep
        exact hth
      | some x =>
        simp only [parseTextStep, hli] at hstep
        rw [Option.some.injEq] at hstep
        subst hstep
        exact hth
    | endList =>
      cases hli : st.list_indent with
      | none =>
        simp only [parseTextStep, hli] at hstep
        rw [Option.some.injEq] at hstep
        subst hstep
        exact hth
      | some x =>
        simp only [parseTextStep, hli] at hstep
        by_cases hx : x = 1
        · rw [if_pos hx, Option.some.injEq] at hstep
          subst hstep
          exact hth
        · rw [if_neg hx, Option.some.injEq] at hstep
          subst hstep
          exact hth
    | startItem =>
      simp only [parseTextStep] at hstep
      rw [Option.some.injEq] at hstep
      subst hstep
      exact hth
    | endItem =>
      simp only [parseTextStep] at hstep
      rw [Option.some.injEq] at hstep
      subst hstep
      exact hth
    | startCodeBlock lang =>
      simp only [parseTextStep] at hstep
      rw [Option.some.injEq] at hstep
      subst hstep
      exact hth
    | endCodeBlock =>
      cases hcbl : st.code_block_language with
      | none =>
        simp only [parseTextStep, hcbl] at hstep
        exact Option.noConfusion hstep
      | some lang =>
        simp only [parseTextStep, hcbl] at hstep
        rw [Option.some.injEq] at hstep
        subst hstep
        exact hth
    | text s =>
      have hcond := hne s rfl
      simp only [parseTextStep] at hstep
      rw [if_neg hcond] at hstep
      split at hstep <;>
        first
        | (rw [Option.some.injEq] at hstep
           subst hstep
           exact hth)
        | (split at hstep <;>
            first
            | (rw [Option.some.injEq] at hstep
               subst hstep
               exact hth)
            | (split at hstep <;>
                (rw [Option.some.injEq] at hstep
                 subst hstep
                 exact hth)))
    | code s =>
      simp only [parseTextStep] at hstep
      rw [Option.some.injEq] at hstep
      subst hstep
      exact hth
    | other =>
      simp only [parseTextStep] at hstep
      rw [Option.some.injEq] at hstep
      subst hstep
      exact hth

theorem markdown_thoughts_rollback_witness :
    parseTextStep
        ⟨[TextOutput.text "# "], none, "", false, false, none, [], 1, none⟩
        (.text "Thoughts") =
      some ⟨[TextOutput.text "# ", TextOutput.bold "Thoughts"],
        none, "", false, false, none, [], 1, some 0⟩ ∧
    parseTextStep
        ⟨[TextOutput.text "# ", TextOutput.bold "Thoughts",
          TextOutput.newline, TextOutput.text "hi"],
          none, "", false, false, none, [], 0, some 0⟩
        (.startHeading 2) =
      some ⟨[TextOutput.text (headingMark 2)],
        none, "", false, false, none, [], (2 : Int), none⟩ ∧
    (⟨[TextOutput.text "hello"], none, "", false, false, none, [], 0, none⟩ :
      MdState).thoughts_heading = none :=
  ⟨markdown_thoughts_rollback.1
     ⟨[TextOutput.text "# "], none, "", false, false, none, [], 1, none⟩
     "Thoughts" rfl rfl rfl,
   markdown_thoughts_rollback.2.1
     ⟨[TextOutput.text "# ", TextOutput.bold "Thoughts",
       TextOutput.newline, TextOutput.text "hi"],
       none, "", false, false, none, [], 0, some 0⟩
     2 0 rfl,
   markdown_thoughts_rollback.2.2
     ⟨[], none, "", false, false, none, [], 0, none⟩
     (.text "hello")
     ⟨[TextOutput.text "hello"], none, "", false, false, none, [], 0, none⟩
     rfl rfl
     (fun s hs hcon => absurd hcon.1 (by decide))⟩
